import Mathlib

/-!
Verification of the Reed-Solomon codec and supporting linear algebra of the
`galois` repository, as a shallow embedding over an abstract finite field.

Field elements are modelled by a Lean `Field F` (for prime fields the concrete
instance `ZMod p` is used); the repository's machine-integer kernels `add`,
`subtract`, `multiply`, `reciprocal`, `power` are the field operations of `F`
(spec 4.1: they are the field operations, invocable in bulk).  Arrays are
`List F` / `List (List F)`; descending-degree coefficient lists mirror the
repository's `Poly.coeffs` convention.

Embedded from `src/galois/code/reed_solomon.py` and
`src/galois/meta_mixin_jit.py`; functions of this repository that are not under
`src/` (`generator_poly_to_matrix`, `roots_to_parity_check_matrix`,
`Poly.Roots`, `prime_factors`, `_lapack_linalg`, `poly_gcd`, `poly_pow`, the
berlekamp-massey and poly-roots kernels) are modelled from the spec and marked
`Modelled from the spec:` on their doc comments.  The decoder receives the
berlekamp-massey and root-finding kernels as function parameters, exactly as
`decode_calculate` receives its JIT-compiled arguments.
-/

namespace GaloisRS

/-- Error taxonomy of spec section 7 (construction / shape / decode errors). -/
inductive CodeError
  | invalidParameters
  | shapeMismatch
  | notImplemented
  | typeMismatch
deriving DecidableEq

/-- The two ufunc modes that `ReedSolomon.decode` distinguishes:
JIT-compiled integer kernels versus `"python-calculate"` for fields too large
for machine integers. -/
inductive UfuncMode
  | jit
  | pythonCalculate
deriving DecidableEq

variable {F : Type} [Field F] [DecidableEq F]

/-! ### Linear algebra layer (`src/galois/meta_mixin_jit.py`) -/

/-- `A.shape[-1]` of a rectangular 2-D array given as a row list. -/
def matWidth (A : List (List F)) : ℕ := (A.headD []).length

/-- One output row of `_matmul_jit` (`meta_mixin_jit.py` lines 212-222): the
inner accumulation `C[i,j] = ADD_JIT(C[i,j], MULTIPLY_JIT(A[i,k], B[k,j]))`
over `k`, starting from the zero initialization of `C`. -/
def matmulRowJit (Arow : List F) (B : List (List F)) : List F :=
  (List.range (matWidth B)).map (fun j =>
    (List.range B.length).foldl
      (fun acc k2 => acc + Arow.getD k2 0 * (B.getD k2 []).getD j 0) 0)

/-- The triple loop of `_matmul_jit`; the outer loop over `i` visits each row
of `A` independently. -/
def matmulRaw (A B : List (List F)) : List (List F) :=
  A.map (fun Arow => matmulRowJit Arow B)

/-- `JITMixin._matmul_python` (`meta_mixin_jit.py` lines 164-174):
`C[i,j] = np.sum(A[i,:] * B[:,j])`. -/
def matmulPythonRaw (A B : List (List F)) : List (List F) :=
  A.map (fun Arow =>
    (List.range (matWidth B)).map (fun j =>
      ((List.range B.length).map
        (fun k2 => Arow.getD k2 0 * (B.getD k2 []).getD j 0)).sum))

/-- `JITMixin._matmul` (`meta_mixin_jit.py` lines 51-95) for 2-D operands on
the generic (extension-field) path: the shape guard
`A.shape[-1] == B.shape[-2]` is checked before any arithmetic, then the
mode-selected kernel runs. -/
def jitMatmul (mode : UfuncMode) (A B : List (List F)) :
    Except CodeError (List (List F)) :=
  if matWidth A ≠ B.length then .error .shapeMismatch
  else .ok (match mode with
    | .pythonCalculate => matmulPythonRaw A B
    | .jit => matmulRaw A B)

/-- The specification-side exact matrix product (spec 4.3): entry `(i,j)` is
the field-valued contraction `∑ k, A[i,k] * B[k,j]`. -/
def matProdSpec (A B : List (List F)) : List (List F) :=
  A.map (fun Arow =>
    (List.range (matWidth B)).map (fun j =>
      ∑ k2 ∈ Finset.range B.length, Arow.getD k2 0 * (B.getD k2 []).getD j 0))

/-- Modelled from the spec: `_lapack_linalg` (prime-field fast path of
`JITMixin._matmul`, not under `src/`), "implemented via modular reduction of an
integer matrix product"; shapes must satisfy `A.cols == B.rows` else the
multiply fails (spec 4.3). -/
def lapackLinalg (p : ℕ) (A B : List (List (ZMod p))) :
    Except CodeError (List (List (ZMod p))) :=
  if matWidth A ≠ B.length then .error .shapeMismatch
  else .ok (A.map (fun Arow =>
    (List.range (matWidth B)).map (fun j =>
      (((∑ k2 ∈ Finset.range B.length,
          (Arow.getD k2 0).val * ((B.getD k2 []).getD j 0).val) % p : ℕ) : ZMod p))))

/-- `numpy` transpose of a rectangular 2-D array. -/
def transposeM (M : List (List F)) : List (List F) :=
  (List.range (matWidth M)).map (fun j => M.map (fun row => row.getD j 0))

/-! ### Polynomial engine pieces used by the codec -/

/-- `_poly_evaluate_jit` (`meta_mixin_jit.py` lines 250-255): Horner's rule,
`results[i] = coeffs[0]` then `results[i] = coeffs[j] + results[i] * x`. -/
def hornerEval (coeffs : List F) (x : F) : F :=
  match coeffs with
  | [] => 0
  | c :: rest => rest.foldl (fun acc cj => cj + acc * x) c

/-- `_convolve_jit` (`meta_mixin_jit.py` lines 225-232): the double loop
`c[i + j] = ADD_JIT(c[i + j], MULTIPLY_JIT(a[i], b[j]))` over `i` ascending
and `j` descending, on a zero-initialized array of size `a.size + b.size - 1`. -/
def convolveList (a b : List F) : List F :=
  (List.range a.length).foldl (fun c i =>
    (List.range b.length).foldl (fun c2 jr =>
      let j := b.length - 1 - jr
      c2.set (i + j) (c2.getD (i + j) 0 + a.getD i 0 * b.getD j 0)) c)
    (List.replicate (a.length + b.length - 1) 0)

/-- One reduction step of `_poly_divmod_jit` (`meta_mixin_jit.py` lines
240-244) on the suffix after position `i`: subtract `q * b[j]` from
`qr[i + j]` for `j = 1 .. b.size - 1`. -/
def subScaled (rest : List F) (q : F) (btail : List F) : List F :=
  List.zipWith (fun r bj => r - q * bj) rest btail ++ rest.drop btail.length

/-- The loop of `_poly_divmod_jit` (`meta_mixin_jit.py` lines 235-247): for
each position `i` up to the quotient degree, if `qr[i]` is nonzero set
`q = DIVIDE_JIT(qr[i], b[0])`, eliminate the leading term and record `q` at
position `i`.  `b0inv` is the inverse of `b[0]` (the kernel `DIVIDE` is
multiplication by the reciprocal). -/
def divmodGo (b0inv : F) (btail : List F) : ℕ → List F → List F
  | 0, qr => qr
  | _ + 1, [] => []
  | s + 1, x :: rest =>
      if x ≠ 0 then
        (x * b0inv) :: divmodGo b0inv btail s (subScaled rest (x * b0inv) btail)
      else x :: divmodGo b0inv btail s rest

/-- `JITMixin._poly_divmod` (`meta_mixin_jit.py` lines 123-136) on one
coefficient vector: run the schoolbook loop, then split the result into
quotient `qr[0 : q_degree + 1]` and remainder `qr[q_degree + 1 :]`. -/
def polyDivmodList (a b : List F) : List F × List F :=
  let qd := a.length - b.length
  let qr := divmodGo (b.headD 0)⁻¹ b.tail (qd + 1) a
  (qr.take (qd + 1), qr.drop (qd + 1))

/-- Modelled from the spec: one multiplication step of `Poly.Roots` (not under
`src/`), "repeated polynomial multiplication" by the linear factor `x - r` on
descending coefficient lists: `p * x` minus `r * p`. -/
def polyMulLin (p : List F) (r : F) : List F :=
  List.zipWith (· + ·) (p ++ [0]) (0 :: p.map (fun a => a * (-r)))

/-- Modelled from the spec: `Poly.Roots` (not under `src/`), the generator
polynomial as the product of the linear factors of its roots,
`g(x) = ∏ (x - root)`. -/
def polyRootsProd (roots : List F) : List F := roots.foldl polyMulLin [1]

/-- Coefficients (descending) of the monomial `x ^ d`. -/
def xPowList (d : ℕ) : List F := 1 :: List.replicate d 0

/-! ### Reed-Solomon codec (`src/galois/code/reed_solomon.py`) -/

/-- The root vector `alpha ** (c + np.arange(0, 2*t))` of `rs_generator_poly`
(`reed_solomon.py` line 90). -/
def rsRootsList (α : F) (c twoT : ℕ) : List F :=
  (List.range twoT).map (fun i => α ^ (c + i))

/-- `rs_generator_poly` (`reed_solomon.py` lines 87-96): the generator
polynomial built from the `2t` consecutive roots. -/
def rsGeneratorPolyList (α : F) (c twoT : ℕ) : List F :=
  polyRootsProd (rsRootsList α c twoT)

/-- Row `i` of the identity block `I_k`. -/
def unitRow (k i : ℕ) : List F :=
  (List.range k).map (fun j => if j = i then 1 else 0)

/-- Modelled from the spec: the parity block row of the systematic generator
matrix (`generator_poly_to_matrix`, not under `src/`): spec 4.4 fixes
`p(x) = -(m(x) x^(n-k) mod g(x))`, so row `i` is the negated remainder of
`x^(n-1-i)` mod `g(x)`, computed with the repository's schoolbook division. -/
def rsParityRow (g : List F) (n i : ℕ) : List F :=
  ((polyDivmodList (xPowList (n - 1 - i)) g).2).map (fun a => -a)

/-- Modelled from the spec: `generator_poly_to_matrix` (not under `src/`).
Systematic: `G = [I_k | P]` (spec 4.4).  Non-systematic: row `i` holds the
coefficients of `g(x) x^(k-1-i)`, so that `c = m G` is `c(x) = m(x) g(x)`
(`reed_solomon.py` line 296). -/
def rsGeneratorMatrix (g : List F) (n k : ℕ) (systematic : Bool) :
    List (List F) :=
  if systematic then
    (List.range k).map (fun i => unitRow k i ++ rsParityRow g n i)
  else
    (List.range k).map (fun i =>
      List.replicate i (0 : F) ++ g ++ List.replicate (k - 1 - i) 0)

/-- Modelled from the spec: `roots_to_parity_check_matrix` (not under `src/`):
`H[i][j] = root_i ^ (n-1-j)` (spec 4.4). -/
def rsParityCheckMatrix (n : ℕ) (roots : List F) : List (List F) :=
  roots.map (fun r => (List.range n).map (fun j => r ^ (n - 1 - j)))

/-- `ReedSolomon.encode` (`reed_solomon.py` lines 337-352) on a batch of
messages: the shape guard `message.shape[-1] == k` runs first; systematic
encoding is `np.hstack((message, message @ G[:, k:]))`, non-systematic is
`message @ G`. -/
def encodeRS (mode : UfuncMode) (k : ℕ) (G : List (List F))
    (systematic : Bool) (message : List (List F)) :
    Except CodeError (List (List F)) :=
  if matWidth message ≠ k then .error .shapeMismatch
  else if systematic then
    match jitMatmul mode message (G.map (fun row => row.drop k)) with
    | .error e => .error e
    | .ok parity => .ok (List.zipWith (· ++ ·) message parity)
  else jitMatmul mode message G

/-- The `sigma_prime` array of `decode_calculate` (`reed_solomon.py` lines
580-583): `sigma_prime[j] = MULTIPLY(degree % CHARACTERISTIC, sigma[j])` for
`degree = v - j`. -/
def sigmaPrimeOf (p : ℕ) (sigma : List F) : List F :=
  (List.range (sigma.length - 1)).map
    (fun j => (((sigma.length - 1 - j) % p : ℕ) : F) * sigma.getD j 0)

/-- Python slice `l[-v:]`, including the `v = 0` quirk where `l[-0:]` is the
whole list. -/
def lastSlice (v : ℕ) (l : List F) : List F :=
  if v = 0 then l else l.drop (l.length - v)

/-- The error-value evaluator `Z0` of `decode_calculate` (`reed_solomon.py`
line 587): `CONVOLVE(sigma[-v:], syndrome[0:v][::-1])[-v:]`. -/
def errorEvalZ0 (sigma synd : List F) : List F :=
  let v := sigma.length - 1
  lastSlice v (convolveList (lastSlice v sigma) (synd.take v).reverse)

/-- The correction loop of `decode_calculate` (`reed_solomon.py` lines
590-595): for each error `j`, evaluate `Z0` and `sigma_prime` at the inverse
locator `beta[j]⁻¹`, form `delta = MULTIPLY(SUBTRACT(0, Z0_i),
RECIPROCAL(sigma_prime_i))` and subtract it at position
`n - 1 - error_locations[j]`. -/
def correctionLoop (row : List F) (v : ℕ) (beta : List F) (locs : List ℕ)
    (sigmaPrime Z0 : List F) : List F :=
  (List.range v).foldl (fun r j =>
    let binv := (beta.getD j 0)⁻¹
    let Z0i := hornerEval Z0 binv
    let spi := hornerEval sigmaPrime binv
    let delta := (0 - Z0i) * spi⁻¹
    let pos := r.length - 1 - locs.getD j 0
    r.set pos (r.getD pos 0 - delta)) row

/-- One codeword of `decode_calculate` (`reed_solomon.py` lines 549-596).
`BM` and `ROOTS` are the berlekamp-massey and root-finding kernels that the
source passes in as JIT-function arguments; `ROOTS` returns the roots of the
reversed locator together with their powers of the primitive element.  The
returned integer is the reported corrected-error count (`-1` marks an
uncorrectable codeword, for which the codeword symbols are left untouched). -/
def decodeCalcRow (p t : ℕ) (BM : List F → List F)
    (ROOTS : List F → List F × List ℕ) (row synd : List F) : List F × ℤ :=
  if ∀ s ∈ synd, s = 0 then (row, 0)
  else
    let sigma := BM synd
    let sigmaRev := BM synd.reverse
    let v : ℤ := (sigma.length : ℤ) - 1
    if (t : ℤ) < v then (row, -1)
    else
      let res := ROOTS sigmaRev
      if ((res.1).length : ℤ) ≠ v then (row, -1)
      else
        let vn := sigma.length - 1
        (correctionLoop row vn res.1 res.2 (sigmaPrimeOf p sigma)
          (errorEvalZ0 sigma synd), v)

/-- The batch loop `for i in range(N)` of `decode_calculate`: each codeword is
decoded from its own row and syndrome row only. -/
def decodeCalcBatch (p t : ℕ) (BM : List F → List F)
    (ROOTS : List F → List F × List ℕ) (cw synd : List (List F)) :
    List (List F × ℤ) :=
  (cw.zip synd).map (fun rs => decodeCalcRow p t BM ROOTS rs.1 rs.2)

/-- Modelled from the spec: `prime_factors` (not under `src/`) returns the
distinct prime factors with multiplicities; `_check_and_compute_field` only
tests that the list of distinct primes has length one. -/
def primeFactorsDistinct (x : ℕ) : List ℕ := x.primeFactorsList.dedup

/-- The field descriptor derived by `_check_and_compute_field`: characteristic
`p` and degree `m` with `q = p ^ m`. -/
structure RSFieldParams where
  char : ℕ
  deg : ℕ
deriving DecidableEq

/-- `_check_and_compute_field` (`reed_solomon.py` lines 19-43), value checks in
source order: `(n - k) % 2 == 0`, then `n + 1` a prime power, then `c >= 1`;
on success the field order is `p ^ m = n + 1`. -/
def rsCheckField (n k c : ℕ) : Except CodeError RSFieldParams :=
  if ((n : ℤ) - (k : ℤ)) % 2 ≠ 0 then .error .invalidParameters
  else if (primeFactorsDistinct (n + 1)).length ≠ 1 then .error .invalidParameters
  else if c < 1 then .error .invalidParameters
  else .ok ⟨(primeFactorsDistinct (n + 1)).headD 0, (n + 1).primeFactorsList.length⟩

/-- The immutable configuration built by `ReedSolomon.__new__`
(`reed_solomon.py` lines 242-262). -/
structure RSCodeData (F : Type) where
  q : ℕ
  n : ℕ
  k : ℕ
  c : ℕ
  t : ℕ
  systematic : Bool
  generatorPoly : List F
  rootsOf : List F
  G : List (List F)
  H : List (List F)

/-- `ReedSolomon.__new__` (`reed_solomon.py` lines 242-262): the parameter
check of `rs_generator_poly` runs first, and only on success are the generator
polynomial, roots, `G` and `H` built (`t = (n - k) // 2`,
`obj._t = roots.size // 2`). -/
def rsConstruct (α : F) (n k c : ℕ) (systematic : Bool) :
    Except CodeError (RSCodeData F) :=
  match rsCheckField n k c with
  | .error e => .error e
  | .ok pm =>
    let t := (n - k) / 2
    let g := rsGeneratorPolyList α c (2 * t)
    .ok { q := pm.char ^ pm.deg, n := n, k := k, c := c, t := t,
          systematic := systematic,
          generatorPoly := g,
          rootsOf := rsRootsList α c (2 * t),
          G := rsGeneratorMatrix g n k systematic,
          H := rsParityCheckMatrix n (rsRootsList α c (2 * t)) }

/-- The field order recorded by a successful construction, `none` on error. -/
def constructedOrder (r : Except CodeError (RSCodeData F)) : Option ℕ :=
  match r with
  | .ok s => some s.q
  | .error _ => none

/-- `ReedSolomon.decode` (`reed_solomon.py` lines 417-446) on a 2-D batch:
the syndrome `codeword @ H.T` is computed first (its shape guard is the only
input validation), then fields in `"python-calculate"` mode raise
`NotImplementedError`, and otherwise each codeword is decoded and the message
is the first `k` symbols (systematic) or the quotient by `g(x)`
(non-systematic, per-codeword as spec 4.4 step f prescribes). -/
def decodeRS (mode : UfuncMode) (p k t : ℕ) (g : List F)
    (H : List (List F)) (systematic : Bool) (BM : List F → List F)
    (ROOTS : List F → List F × List ℕ) (cw : List (List F)) :
    Except CodeError (List (List F) × List ℤ) :=
  match jitMatmul mode cw (transposeM H) with
  | .error e => .error e
  | .ok synd =>
    if mode = .pythonCalculate then .error .notImplemented
    else
      let res := decodeCalcBatch p t BM ROOTS cw synd
      let decRows := res.map Prod.fst
      let msgs := if systematic then decRows.map (fun r => r.take k)
                  else decRows.map (fun r => (polyDivmodList r g).1)
      .ok (msgs, res.map Prod.snd)

/-! ### Equal-degree factorization (`src/galois/_polys/_factor.py` lines
326-410).  `Poly` values are normalized coefficient lists; helpers that live
outside `src/` (`poly_gcd`, `poly_pow`, `is_monic`) are modelled from the
spec. -/

/-- Leading-zero normalization of a coefficient list (the `Poly` invariant of
spec section 3: leading coefficient nonzero unless zero polynomial). -/
def stripLeadZeros (l : List F) : List F := l.dropWhile (fun a => a == 0)

/-- Polynomial equality as `Poly` objects compare: on normalized forms. -/
def polyEqL (a b : List F) : Bool := stripLeadZeros a == stripLeadZeros b

/-- The constant polynomial one. -/
def polyOne : List F := [1]

/-- Modelled from the spec: monic normalization used by `poly_gcd` (not under
`src/`): divide by the leading coefficient (spec 4.2 `gcd`). -/
def monicize (l : List F) : List F :=
  let s := stripLeadZeros l
  s.map (fun a => a * (s.headD 0)⁻¹)

/-- Remainder for arbitrary (normalized, nonzero) divisors: the schoolbook
division if the dividend is at least as long, else the dividend itself. -/
def polyModGen (a b : List F) : List F :=
  if a.length < b.length then a else (polyDivmodList a b).2

/-- Quotient companion of `polyModGen`. -/
def polyDivGen (a b : List F) : List F :=
  if a.length < b.length then [] else (polyDivmodList a b).1

/-- Modelled from the spec: `poly_gcd` (not under `src/`), the Euclidean
algorithm using divmod, normalized so the result is monic; `gcd(0,0) = 0`
(spec 4.2).  Fuel-indexed; each step strictly shortens the second argument, so
the initial fuel below is never exhausted. -/
def polyGcdFuel : ℕ → List F → List F → List F
  | 0, a, _ => monicize a
  | fuel + 1, a, b =>
      let bn := stripLeadZeros b
      if bn.isEmpty then monicize (stripLeadZeros a)
      else polyGcdFuel fuel bn (polyModGen (stripLeadZeros a) bn)

/-- `poly_gcd` entry point. -/
def polyGcdList (a b : List F) : List F := polyGcdFuel (a.length + b.length + 1) a b

/-- Aligned (low-degree-anchored) subtraction of coefficient lists, as `Poly`
subtraction behaves (spec 4.2 `add/sub`). -/
def polySubLow (a b : List F) : List F :=
  let L := max a.length b.length
  List.zipWith (fun x y => x - y)
    (List.replicate (L - a.length) (0 : F) ++ a)
    (List.replicate (L - b.length) (0 : F) ++ b)

/-- Modelled from the spec: `poly_pow` (not under `src/`), modular
exponentiation `h ^ e mod m` by repeated multiply-and-reduce with the
repository's convolution and schoolbook division. -/
def polyPowMod (h : List F) (e : ℕ) (m : List F) : List F :=
  match e with
  | 0 => [1]
  | e + 1 => polyModGen (convolveList (polyPowMod h e m) h) m

/-- The `for u in factors_` body of `equal_degree_factorization`
(`_factor.py` lines 400-405), iterating by position over the current factor
list as the Python loop does: a factor `u` splits when
`gcd(g, u) ∉ {1, u}`, replacing `u` by `gcd` and `u / gcd` at the end. -/
def edfInnerGo (g : List F) : ℕ → ℕ → List (List F) → List (List F)
  | 0, _, factors => factors
  | fuel + 1, idx, factors =>
      match factors.get? idx with
      | none => factors
      | some u =>
          let gg := polyGcdList g u
          if polyEqL gg polyOne || polyEqL gg u then
            edfInnerGo g fuel (idx + 1) factors
          else
            edfInnerGo g fuel (idx + 1) ((factors.erase u) ++ [gg, polyDivGen u gg])

/-- One iteration of the splitting loop of `equal_degree_factorization`
(`_factor.py` lines 395-405) with the drawn random polynomial `h`:
`g = gcd(f, h)`, replaced by `h ^ ((q^d - 1)/2) - 1 mod f` when that gcd is
one, then the factor-splitting pass. -/
def edfStep (f : List F) (qd2 : ℕ) (factors : List (List F)) (h : List F) :
    List (List F) :=
  let g0 := polyGcdList f h
  let g := if polyEqL g0 polyOne then polySubLow (polyPowMod h qd2 f) polyOne
           else g0
  edfInnerGo g (2 * factors.length + 2) 0 factors

/-- The `while len(factors_) < r` loop of `equal_degree_factorization`
(`_factor.py` lines 395-405).  The random draws are an explicit stream,
indexed by iteration; the loop has no retry bound of its own, so it is
fuel-indexed here, and `none` means the loop had not accumulated `r` factors
after `fuel` draws. -/
def edfLoop (f : List F) (qd2 r : ℕ) (stream : ℕ → List F) :
    ℕ → ℕ → List (List F) → Option (List (List F))
  | 0, _, factors => if r ≤ factors.length then some factors else none
  | fuel + 1, idx, factors =>
      if r ≤ factors.length then some factors
      else edfLoop f qd2 r stream fuel (idx + 1) (edfStep f qd2 factors (stream idx))

/-- Modelled from the spec: `is_monic` (not under `src/`): the leading
coefficient is the multiplicative identity. -/
def isMonicL (l : List F) : Bool := (stripLeadZeros l).headD 0 == 1

/-- `equal_degree_factorization` (`_factor.py` lines 326-410): argument
validation in source order (non-constant, monic, `d` divides the degree),
then the randomized splitting loop starting from `factors_ = [poly]` with
`r = degree / d`, and a final sort by the integer representation `rep` of
each factor.  `fuel` bounds the number of random draws consumed from
`stream`; `none` reports that the loop did not terminate within `fuel`. -/
def equalDegreeFactorizationModel (f : List F) (d q : ℕ)
    (rep : List F → ℕ) (stream : ℕ → List F) (fuel : ℕ) :
    Except CodeError (Option (List (List F))) :=
  let deg := (stripLeadZeros f).length - 1
  if deg < 1 then .error .invalidParameters
  else if ¬ isMonicL f then .error .invalidParameters
  else if d = 0 ∨ deg % d ≠ 0 then .error .invalidParameters
  else .ok ((edfLoop f ((q ^ d - 1) / 2) (deg / d) stream fuel 0 [f]).map
    (fun fs => fs.insertionSort (fun a b => rep a ≤ rep b)))

/-! ### A concrete computable model of GF(5)

`ZMod 5` has a field inverse defined through the extended Euclidean algorithm,
which does not evaluate by kernel reduction; for concrete decoder-independent
evaluation of inverses a copy of GF(5) on `Fin 5` with a tabulated inverse is
used. -/

/-- GF(5) on `Fin 5`. -/
def F5 : Type := Fin 5

instance F5.instDecidableEq : DecidableEq F5 := fun a b => instDecidableEqFin 5 a b

instance F5.instFintype : Fintype F5 := Fin.fintype 5

instance F5.instZero : Zero F5 := ⟨(0 : Fin 5)⟩

instance F5.instOne : One F5 := ⟨(1 : Fin 5)⟩

instance F5.instAdd : Add F5 := ⟨fun a b => Fin.add a b⟩

instance F5.instMul : Mul F5 := ⟨fun a b => Fin.mul a b⟩

instance F5.instNeg : Neg F5 := ⟨fun a => Fin.sub 0 a⟩

instance F5.instInv : Inv F5 :=
  ⟨fun a => ([0, 1, 3, 2, 4] : List (Fin 5)).getD (Fin.val a) 0⟩

instance F5.instField : Field F5 :=
  Field.ofMinimalAxioms F5 (by decide) (by decide) (by decide) (by decide)
    (by decide) (by decide) (by decide) (by decide) (by decide) (by decide)

/-! ### Semantic bridge: descending coefficient lists as `Polynomial F` -/

/-- The decoded message of row `i` of a batch-decode result (`none` when the
whole call failed or the row does not exist). -/
def msgsAt (r : Except CodeError (List (List F) × List ℤ)) (i : ℕ) :
    Option (List F) :=
  match r with
  | .ok pr => pr.1.get? i
  | .error _ => none

/-- The reported error count of row `i` of a batch-decode result. -/
def errsAt (r : Except CodeError (List (List F) × List ℤ)) (i : ℕ) :
    Option ℤ :=
  match r with
  | .ok pr => pr.2.get? i
  | .error _ => none

open Polynomial in
/-- The polynomial denoted by a descending coefficient list. -/
noncomputable def toPolyD : List F → Polynomial F
  | [] => 0
  | a :: as => C a * X ^ as.length + toPolyD as

section PolyLemmas

open Polynomial

set_option linter.unusedSectionVars false

theorem toPolyD_nil : toPolyD ([] : List F) = 0 := rfl

theorem toPolyD_cons (a : F) (as : List F) :
    toPolyD (a :: as) = C a * X ^ as.length + toPolyD as := rfl

theorem toPolyD_zero_cons (l : List F) : toPolyD ((0 : F) :: l) = toPolyD l := by
  simp [toPolyD_cons]

theorem toPolyD_replicate_zero (m : ℕ) :
    toPolyD (List.replicate m (0 : F)) = 0 := by
  induction m with
  | zero => rfl
  | succ m ih => simpa [List.replicate_succ, toPolyD_cons] using ih

theorem toPolyD_append (a b : List F) :
    toPolyD (a ++ b) = toPolyD a * X ^ b.length + toPolyD b := by
  induction a with
  | nil => simp [toPolyD_nil]
  | cons x xs ih =>
      simp only [List.cons_append, toPolyD_cons, List.length_append, ih, pow_add]
      ring

theorem toPolyD_append_zeros (l : List F) (m : ℕ) :
    toPolyD (l ++ List.replicate m 0) = toPolyD l * X ^ m := by
  simp [toPolyD_append, toPolyD_replicate_zero]

theorem toPolyD_zipWith_add (u v : List F) (h : u.length = v.length) :
    toPolyD (List.zipWith (· + ·) u v) = toPolyD u + toPolyD v := by
  induction u generalizing v with
  | nil => cases v with
    | nil => simp [toPolyD_nil]
    | cons y ys => simp at h
  | cons x xs ih =>
      cases v with
      | nil => simp at h
      | cons y ys =>
          have hl : xs.length = ys.length := by simpa using h
          simp only [List.zipWith_cons_cons, toPolyD_cons, ih ys hl,
            List.length_zipWith, hl, min_self, C_add]
          ring

theorem toPolyD_map_mul_right (l : List F) (s : F) :
    toPolyD (l.map (fun a => a * s)) = toPolyD l * C s := by
  induction l with
  | nil => simp [toPolyD_nil]
  | cons x xs ih =>
      simp only [List.map_cons, toPolyD_cons, List.length_map, ih, C_mul]
      ring

theorem toPolyD_map_neg (l : List F) :
    toPolyD (l.map (fun a => -a)) = -toPolyD l := by
  induction l with
  | nil => simp [toPolyD_nil]
  | cons x xs ih =>
      simp only [List.map_cons, toPolyD_cons, List.length_map, ih, C_neg]
      ring

theorem degree_toPolyD_lt (l : List F) :
    (toPolyD l).degree < (l.length : WithBot ℕ) := by
  induction l with
  | nil => simp [toPolyD_nil]
  | cons x xs ih =>
      have h1 : (C x * X ^ xs.length : Polynomial F).degree ≤ (xs.length : WithBot ℕ) :=
        degree_C_mul_X_pow_le xs.length x
      have h2 : (toPolyD xs).degree ≤ (xs.length : WithBot ℕ) := le_of_lt ih
      calc (toPolyD (x :: xs)).degree
          ≤ max (C x * X ^ xs.length : Polynomial F).degree (toPolyD xs).degree :=
            degree_add_le _ _
        _ ≤ (xs.length : WithBot ℕ) := max_le h1 h2
        _ < ((xs.length + 1 : ℕ) : WithBot ℕ) := by
            exact_mod_cast WithBot.coe_lt_coe.2 (Nat.lt_succ_self _)

theorem coeff_toPolyD_of_le (l : List F) (d : ℕ) (h : l.length ≤ d) :
    (toPolyD l).coeff d = 0 :=
  coeff_eq_zero_of_degree_lt (lt_of_lt_of_le (degree_toPolyD_lt l)
    (by exact_mod_cast WithBot.coe_le_coe.2 h))

theorem toPolyD_inj (l1 l2 : List F) (hlen : l1.length = l2.length)
    (h : toPolyD l1 = toPolyD l2) : l1 = l2 := by
  induction l1 generalizing l2 with
  | nil => cases l2 with
    | nil => rfl
    | cons y ys => simp at hlen
  | cons x xs ih =>
      cases l2 with
      | nil => simp at hlen
      | cons y ys =>
          have hl : xs.length = ys.length := by simpa using hlen
          have hx : x = y := by
            have hcoeff := congrArg (fun q => Polynomial.coeff q ys.length) h
            simp only [toPolyD_cons, coeff_add, coeff_C_mul, coeff_X_pow, hl]
              at hcoeff
            rw [coeff_toPolyD_of_le xs ys.length (le_of_eq hl),
                coeff_toPolyD_of_le ys ys.length le_rfl] at hcoeff
            simpa using hcoeff
          subst hx
          have hrest : toPolyD xs = toPolyD ys := by
            have h2 := h
            simp only [toPolyD_cons, hl] at h2
            exact add_left_cancel h2
          rw [ih ys hl hrest]

theorem toPolyD_eq_sum (l : List F) :
    toPolyD l = ∑ i ∈ Finset.range l.length,
      C (l.getD i 0) * X ^ (l.length - 1 - i) := by
  induction l with
  | nil => simp [toPolyD_nil]
  | cons x xs ih =>
      rw [toPolyD_cons, ih, List.length_cons, Finset.sum_range_succ',
        add_comm (C x * X ^ xs.length)]
      congr 1
      apply Finset.sum_congr rfl
      intro i _
      simp [List.getD_cons_succ, Nat.succ_sub_one, Nat.sub_sub, Nat.add_comm]

theorem eval_toPolyD_sum (l : List F) (x : F) :
    (toPolyD l).eval x
      = ∑ i ∈ Finset.range l.length, l.getD i 0 * x ^ (l.length - 1 - i) := by
  rw [toPolyD_eq_sum, eval_finset_sum]
  simp

theorem degree_toPolyD_cons (b0 : F) (btail : List F) (hb0 : b0 ≠ 0) :
    (toPolyD (b0 :: btail)).degree = (btail.length : WithBot ℕ) := by
  rw [toPolyD_cons, degree_add_eq_left_of_degree_lt, degree_C_mul_X_pow _ hb0]
  rw [degree_C_mul_X_pow _ hb0]
  exact degree_toPolyD_lt btail

theorem subScaled_length (rest : List F) (q : F) (btail : List F) :
    (subScaled rest q btail).length = rest.length := by
  simp only [subScaled, List.length_append, List.length_zipWith, List.length_drop]
  omega

theorem toPolyD_subScaled (rest : List F) (q : F) (btail : List F)
    (h : btail.length ≤ rest.length) :
    toPolyD (subScaled rest q btail)
      = toPolyD rest - C q * toPolyD btail * X ^ (rest.length - btail.length) := by
  induction btail generalizing rest with
  | nil => simp [subScaled, toPolyD_nil]
  | cons b bt ih =>
      cases rest with
      | nil => simp at h
      | cons r rs =>
          have hbt : bt.length ≤ rs.length := by simpa using h
          have hstep : subScaled (r :: rs) q (b :: bt)
              = (r - q * b) :: subScaled rs q bt := by
            simp [subScaled]
          rw [hstep, toPolyD_cons, subScaled_length rs q bt, ih rs hbt]
          rw [toPolyD_cons, toPolyD_cons]
          have hexp : (X : Polynomial F) ^ rs.length
              = X ^ bt.length * X ^ (rs.length - bt.length) := by
            rw [← pow_add, Nat.add_sub_cancel' hbt]
          have hlen2 : (r :: rs).length - (b :: bt).length
              = rs.length - bt.length := by simp
          rw [hlen2, hexp, C_sub, C_mul]
          ring

theorem divmodGo_length (b0inv : F) (btail : List F) (s : ℕ) (qr : List F) :
    (divmodGo b0inv btail s qr).length = qr.length := by
  induction s generalizing qr with
  | zero => rfl
  | succ s ih =>
      cases qr with
      | nil => rfl
      | cons x rest =>
          simp only [divmodGo]
          split
          · simp [ih, subScaled_length]
          · simp [ih]

theorem divmodGo_spec (b0 : F) (btail : List F) (hb0 : b0 ≠ 0) (s : ℕ) :
    ∀ qr : List F, qr.length = s + btail.length →
      toPolyD qr
        = toPolyD (b0 :: btail) * toPolyD ((divmodGo b0⁻¹ btail s qr).take s)
          + toPolyD ((divmodGo b0⁻¹ btail s qr).drop s) := by
  induction s with
  | zero => intro qr _; simp [divmodGo, toPolyD_nil]
  | succ s ih =>
      intro qr hlen
      cases qr with
      | nil => simp at hlen; omega
      | cons x rest =>
          have hrest : rest.length = s + btail.length := by
            simpa [Nat.succ_add] using hlen
          by_cases hx : x = 0
          · have hstep : divmodGo b0⁻¹ btail (s + 1) (x :: rest)
                = x :: divmodGo b0⁻¹ btail s rest := by
              simp [divmodGo, hx]
            rw [hstep, List.take_succ_cons, List.drop_succ_cons, hx,
              toPolyD_zero_cons, toPolyD_zero_cons]
            exact ih rest hrest
          · have hstep : divmodGo b0⁻¹ btail (s + 1) (x :: rest)
                = (x * b0⁻¹) ::
                    divmodGo b0⁻¹ btail s (subScaled rest (x * b0⁻¹) btail) := by
              simp [divmodGo, hx]
            have hbt : btail.length ≤ rest.length := by omega
            have hrest2 : (subScaled rest (x * b0⁻¹) btail).length
                = s + btail.length := by rw [subScaled_length]; exact hrest
            have hIH := ih (subScaled rest (x * b0⁻¹) btail) hrest2
            have hsub := toPolyD_subScaled rest (x * b0⁻¹) btail hbt
            have hes : rest.length - btail.length = s := by omega
            rw [hes] at hsub
            rw [hsub] at hIH
            rw [hstep, List.take_succ_cons, List.drop_succ_cons, toPolyD_cons,
              toPolyD_cons, toPolyD_cons]
            have hlentake :
                ((divmodGo b0⁻¹ btail s (subScaled rest (x * b0⁻¹) btail)).take
                    s).length = s := by
              rw [List.length_take, divmodGo_length, subScaled_length]
              omega
            rw [hlentake]
            have hCx : C x = C (x * b0⁻¹) * C b0 := by
              rw [← C_mul, mul_assoc, inv_mul_cancel₀ hb0, mul_one]
            have hexp : (X : Polynomial F) ^ rest.length
                = X ^ btail.length * X ^ s := by
              rw [← pow_add]
              congr 1
              omega
            rw [toPolyD_cons] at hIH
            rw [hCx, hexp]
            linear_combination hIH

theorem polyDivmodList_spec (a : List F) (b0 : F) (btail : List F)
    (hb0 : b0 ≠ 0) (hlen : btail.length + 1 ≤ a.length) :
    toPolyD a
      = toPolyD (b0 :: btail) * toPolyD (polyDivmodList a (b0 :: btail)).1
        + toPolyD (polyDivmodList a (b0 :: btail)).2
    ∧ (polyDivmodList a (b0 :: btail)).1.length = a.length - btail.length
    ∧ (polyDivmodList a (b0 :: btail)).2.length = btail.length := by
  have hs : a.length = (a.length - (btail.length + 1) + 1) + btail.length := by
    omega
  have hmain := divmodGo_spec b0 btail hb0 (a.length - (btail.length + 1) + 1) a hs
  have hout : (divmodGo b0⁻¹ btail (a.length - (btail.length + 1) + 1) a).length
      = a.length := divmodGo_length _ _ _ _
  have hdef : polyDivmodList a (b0 :: btail)
      = ((divmodGo b0⁻¹ btail (a.length - (btail.length + 1) + 1) a).take
          (a.length - (btail.length + 1) + 1),
         (divmodGo b0⁻¹ btail (a.length - (btail.length + 1) + 1) a).drop
          (a.length - (btail.length + 1) + 1)) := by
    simp [polyDivmodList]
  rw [hdef]
  refine ⟨hmain, ?_, ?_⟩
  · simp only [List.length_take, hout]
    omega
  · simp only [List.length_drop, hout]
    omega

theorem polyDivmodList_eq_div_mod (a : List F) (b0 : F) (btail : List F)
    (hb0 : b0 ≠ 0) (hmonic : (toPolyD (b0 :: btail)).Monic)
    (hlen : btail.length + 1 ≤ a.length) :
    toPolyD (polyDivmodList a (b0 :: btail)).1
        = toPolyD a /ₘ toPolyD (b0 :: btail)
    ∧ toPolyD (polyDivmodList a (b0 :: btail)).2
        = toPolyD a %ₘ toPolyD (b0 :: btail) := by
  obtain ⟨hid, _hq, hr⟩ := polyDivmodList_spec a b0 btail hb0 hlen
  have hdegr : (toPolyD (polyDivmodList a (b0 :: btail)).2).degree
      < (toPolyD (b0 :: btail)).degree := by
    rw [degree_toPolyD_cons b0 btail hb0, ← hr]
    exact degree_toPolyD_lt _
  have hsum : toPolyD (polyDivmodList a (b0 :: btail)).2
      + toPolyD (b0 :: btail) * toPolyD (polyDivmodList a (b0 :: btail)).1
      = toPolyD a := by
    rw [hid]; ring
  have huniq := div_modByMonic_unique (toPolyD (polyDivmodList a (b0 :: btail)).1)
    (toPolyD (polyDivmodList a (b0 :: btail)).2) hmonic ⟨hsum, hdegr⟩
  exact ⟨huniq.1.symm, huniq.2.symm⟩

theorem polyMulLin_length (l : List F) (r : F) :
    (polyMulLin l r).length = l.length + 1 := by
  simp [polyMulLin]

theorem polyMulLin_headD (l : List F) (r : F) (hl : l ≠ []) :
    (polyMulLin l r).headD 0 = l.headD 0 := by
  cases l with
  | nil => exact absurd rfl hl
  | cons a as => simp [polyMulLin]

theorem toPolyD_polyMulLin (l : List F) (r : F) :
    toPolyD (polyMulLin l r) = toPolyD l * (X - C r) := by
  rw [polyMulLin, toPolyD_zipWith_add _ _ (by simp)]
  have h1 : toPolyD (l ++ [0]) = toPolyD l * X := by
    simpa using toPolyD_append_zeros l 1
  rw [h1, toPolyD_zero_cons, toPolyD_map_mul_right l (-r), C_neg]
  ring

theorem foldl_polyMulLin_toPolyD (roots : List F) :
    ∀ init : List F,
      toPolyD (roots.foldl polyMulLin init)
        = toPolyD init * (roots.map (fun r => X - C r)).prod := by
  induction roots with
  | nil => intro init; simp
  | cons r rs ih =>
      intro init
      rw [List.foldl_cons, List.map_cons, List.prod_cons,
        ih (polyMulLin init r), toPolyD_polyMulLin]
      ring

theorem foldl_polyMulLin_length (roots : List F) :
    ∀ init : List F,
      (roots.foldl polyMulLin init).length = init.length + roots.length := by
  induction roots with
  | nil => intro init; simp
  | cons r rs ih =>
      intro init
      rw [List.foldl_cons, ih (polyMulLin init r), polyMulLin_length,
        List.length_cons]
      omega

theorem foldl_polyMulLin_headD (roots : List F) :
    ∀ init : List F, init ≠ [] →
      (roots.foldl polyMulLin init).headD 0 = init.headD 0 := by
  induction roots with
  | nil => intro init _; rfl
  | cons r rs ih =>
      intro init hne
      rw [List.foldl_cons, ih (polyMulLin init r)
        (List.length_pos.mp (by rw [polyMulLin_length]; omega))]
      exact polyMulLin_headD init r hne

theorem listProdRangeMap {M : Type} [CommMonoid M] (f : ℕ → M) (n : ℕ) :
    ((List.range n).map f).prod = ∏ i ∈ Finset.range n, f i := by
  induction n with
  | zero => simp
  | succ n ih =>
      rw [List.range_succ, List.map_append, List.prod_append,
        Finset.prod_range_succ, ih]
      simp

theorem listSumRangeMap {M : Type} [AddCommMonoid M] (f : ℕ → M) (n : ℕ) :
    ((List.range n).map f).sum = ∑ i ∈ Finset.range n, f i := by
  induction n with
  | zero => simp
  | succ n ih =>
      rw [List.range_succ, List.map_append, List.sum_append,
        Finset.sum_range_succ, ih]
      simp

theorem foldlAddRange {M : Type} [AddCommMonoid M] (f : ℕ → M) (n : ℕ)
    (init : M) :
    (List.range n).foldl (fun acc k => acc + f k) init
      = init + ∑ k ∈ Finset.range n, f k := by
  induction n with
  | zero => simp
  | succ n ih =>
      rw [List.range_succ, List.foldl_append, ih, Finset.sum_range_succ]
      simp [add_assoc]

theorem mapRangeGetD {β : Type} (l : List F) (f : F → β) :
    (List.range l.length).map (fun j => f (l.getD j 0)) = l.map f := by
  induction l with
  | nil => simp
  | cons x xs ih =>
      rw [List.length_cons, List.range_succ_eq_map, List.map_cons,
        List.map_map, List.map_cons]
      refine congrArg₂ _ rfl ?_
      simpa [Function.comp_def, Nat.succ_eq_add_one, List.getD] using ih

theorem matmulRowJit_eq (Arow : List F) (B : List (List F)) :
    matmulRowJit Arow B = (List.range (matWidth B)).map
      (fun j => ∑ k2 ∈ Finset.range B.length,
        Arow.getD k2 0 * (B.getD k2 []).getD j 0) := by
  unfold matmulRowJit
  apply List.map_congr_left
  intro j _
  rw [foldlAddRange]
  simp

theorem matmulRaw_eq_spec (A B : List (List F)) :
    matmulRaw A B = matProdSpec A B := by
  unfold matmulRaw matProdSpec
  apply List.map_congr_left
  intro row _
  exact matmulRowJit_eq row B

theorem matmulPythonRaw_eq_spec (A B : List (List F)) :
    matmulPythonRaw A B = matProdSpec A B := by
  unfold matmulPythonRaw matProdSpec
  apply List.map_congr_left
  intro row _
  apply List.map_congr_left
  intro j _
  exact listSumRangeMap _ _

theorem lapackLinalg_eq_spec (p : ℕ) [Fact (Nat.Prime p)] (A B : List (List (ZMod p))) :
    lapackLinalg p A B
      = if matWidth A ≠ B.length then .error .shapeMismatch
        else .ok (matProdSpec A B) := by
  unfold lapackLinalg matProdSpec
  by_cases h : matWidth A ≠ B.length
  · simp [h]
  · simp only [h, if_false, Except.ok.injEq]
    apply List.map_congr_left
    intro row _
    apply List.map_congr_left
    intro j _
    rw [ZMod.natCast_mod, Nat.cast_sum]
    apply Finset.sum_congr rfl
    intro k2 _
    rw [Nat.cast_mul, ZMod.natCast_rightInverse _, ZMod.natCast_rightInverse _]

theorem rsGeneratorPoly_toPolyD (α : F) (c twoT : ℕ) :
    toPolyD (rsGeneratorPolyList α c twoT)
      = ∏ i ∈ Finset.range twoT, (X - C (α ^ (c + i))) := by
  rw [rsGeneratorPolyList, polyRootsProd, foldl_polyMulLin_toPolyD, rsRootsList,
    List.map_map]
  have h1 : toPolyD ([1] : List F) = 1 := by
    simp [toPolyD_cons, toPolyD_nil]
  rw [h1, one_mul]
  simpa [Function.comp_def] using
    listProdRangeMap (fun i => (X : Polynomial F) - C (α ^ (c + i))) twoT

theorem rsGeneratorPoly_monic (α : F) (c twoT : ℕ) :
    (toPolyD (rsGeneratorPolyList α c twoT)).Monic := by
  rw [rsGeneratorPoly_toPolyD]
  exact monic_prod_of_monic _ _ (fun i _ => monic_X_sub_C _)

theorem rsGeneratorPoly_length (α : F) (c twoT : ℕ) :
    (rsGeneratorPolyList α c twoT).length = twoT + 1 := by
  rw [rsGeneratorPolyList, polyRootsProd, foldl_polyMulLin_length]
  simp [rsRootsList, Nat.add_comm]

theorem rsGeneratorPoly_headD (α : F) (c twoT : ℕ) :
    (rsGeneratorPolyList α c twoT).headD 0 = 1 := by
  rw [rsGeneratorPolyList, polyRootsProd, foldl_polyMulLin_headD _ _ (by simp)]
  rfl

theorem rsGeneratorPoly_cons (α : F) (c twoT : ℕ) :
    rsGeneratorPolyList α c twoT
      = 1 :: (rsGeneratorPolyList α c twoT).tail := by
  have hne : rsGeneratorPolyList α c twoT ≠ [] :=
    List.length_pos.mp (by rw [rsGeneratorPoly_length]; omega)
  have hh := rsGeneratorPoly_headD α c twoT
  cases hg : rsGeneratorPolyList α c twoT with
  | nil => exact absurd hg hne
  | cons a as =>
      rw [hg] at hh
      simp only [List.headD_cons] at hh
      rw [hh]
      rfl

theorem rsGeneratorPoly_tail_length (α : F) (c twoT : ℕ) :
    (rsGeneratorPolyList α c twoT).tail.length = twoT := by
  rw [List.length_tail, rsGeneratorPoly_length]
  omega

theorem rsGeneratorPoly_root_eval (α : F) (c twoT : ℕ) (j : ℕ) (hj : j < twoT) :
    (toPolyD (rsGeneratorPolyList α c twoT)).eval (α ^ (c + j)) = 0 := by
  rw [rsGeneratorPoly_toPolyD, eval_prod]
  apply Finset.prod_eq_zero (Finset.mem_range.mpr hj)
  simp

theorem mapAddPointwise (l : List ℕ) (f g : ℕ → F) :
    l.map (fun j => f j + g j)
      = List.zipWith (· + ·) (l.map f) (l.map g) := by
  induction l with
  | nil => rfl
  | cons x xs ih => rw [List.map_cons, List.map_cons, List.map_cons,
      List.zipWith_cons_cons, ih]

theorem toPolyD_map_mul_left (l : List F) (s : F) :
    toPolyD (l.map (fun a => s * a)) = C s * toPolyD l := by
  induction l with
  | nil => simp [toPolyD_nil]
  | cons x xs ih =>
      simp only [List.map_cons, toPolyD_cons, List.length_map, ih, C_mul]
      ring

theorem toPolyD_replicate_append (i : ℕ) (l : List F) :
    toPolyD (List.replicate i 0 ++ l) = toPolyD l := by
  induction i with
  | zero => rfl
  | succ i ih =>
      rw [List.replicate_succ, List.cons_append, toPolyD_zero_cons, ih]

theorem xPowList_length (d : ℕ) : (xPowList d : List F).length = d + 1 := by
  simp [xPowList]

theorem toPolyD_xPowList (d : ℕ) : toPolyD (xPowList d : List F) = X ^ d := by
  simp [xPowList, toPolyD_cons, toPolyD_replicate_zero]

theorem unitRow_length (k i : ℕ) : (unitRow k i : List F).length = k := by
  simp [unitRow]

theorem getD_rangeMap {β : Type} (f : ℕ → β) (L i : ℕ) (d : β) (hi : i < L) :
    ((List.range L).map f).getD i d = f i := by
  rw [List.getD_eq_getElem?_getD, List.getElem?_map, List.getElem?_range hi]
  rfl

theorem getD_map_lt {β γ : Type} (l : List β) (f : β → γ) (i : ℕ) (d : γ)
    (dl : β) (hi : i < l.length) :
    (l.map f).getD i d = f (l.getD i dl) := by
  rw [List.getD_eq_getElem?_getD, List.getElem?_map]
  rw [List.getElem?_eq_getElem hi]
  rw [List.getD_eq_getElem?_getD, List.getElem?_eq_getElem hi]
  rfl

theorem zipWith_append_map {β : Type} (l : List (List β))
    (f : List β → List β) :
    List.zipWith (· ++ ·) l (l.map f) = l.map (fun x => x ++ f x) := by
  induction l with
  | nil => rfl
  | cons x xs ih => simp [ih]

theorem zip_self_map {β γ : Type} (l : List β) (f : β → γ) :
    l.zip (l.map f) = l.map (fun x => (x, f x)) := by
  induction l with
  | nil => rfl
  | cons x xs ih => simp [ih]

theorem toPolyD_rangeMap_sum (w L : ℕ) (coef : ℕ → F) (rows : ℕ → List F)
    (hrows : ∀ i, i < L → (rows i).length = w) :
    toPolyD ((List.range w).map
        (fun j => ∑ i ∈ Finset.range L, coef i * (rows i).getD j 0))
      = ∑ i ∈ Finset.range L, C (coef i) * toPolyD (rows i) := by
  induction L with
  | zero =>
      simp only [Finset.range_zero, Finset.sum_empty]
      have hmap : (List.range w).map (fun _ => (0 : F))
          = List.replicate w 0 := by
        simp [List.map_const']
      rw [hmap, toPolyD_replicate_zero]
  | succ L ih =>
      have hsplit : (List.range w).map
            (fun j => ∑ i ∈ Finset.range (L + 1), coef i * (rows i).getD j 0)
          = List.zipWith (· + ·)
              ((List.range w).map
                (fun j => ∑ i ∈ Finset.range L, coef i * (rows i).getD j 0))
              ((List.range w).map (fun j => coef L * (rows L).getD j 0)) := by
        rw [← mapAddPointwise]
        apply List.map_congr_left
        intro j _
        rw [Finset.sum_range_succ]
      rw [hsplit, toPolyD_zipWith_add _ _ (by simp),
        ih (fun i hi => hrows i (by omega)), Finset.sum_range_succ]
      congr 1
      have hr : (rows L).length = w := hrows L (by omega)
      have hmap2 : (List.range w).map (fun j => coef L * (rows L).getD j 0)
          = (rows L).map (fun a => coef L * a) := by
        rw [← hr]
        exact mapRangeGetD (rows L) (fun a => coef L * a)
      rw [hmap2, toPolyD_map_mul_left]

theorem toPolyD_matmulRowJit (m : List F) (B : List (List F))
    (hB : ∀ i, i < B.length → (B.getD i []).length = matWidth B) :
    toPolyD (matmulRowJit m B)
      = ∑ i ∈ Finset.range B.length, C (m.getD i 0) * toPolyD (B.getD i []) := by
  rw [matmulRowJit_eq]
  exact toPolyD_rangeMap_sum (matWidth B) B.length (fun i => m.getD i 0)
    (fun i => B.getD i []) hB

theorem headD_eq_getD_zero {β : Type} (l : List β) (d : β) :
    l.headD d = l.getD 0 d := by
  cases l <;> rfl

theorem headD_map {β γ : Type} (l : List β) (f : β → γ) (d : γ) (dl : β)
    (hl : l ≠ []) : (l.map f).headD d = f (l.headD dl) := by
  cases l with
  | nil => exact absurd rfl hl
  | cons x xs => rfl

theorem matmulRowJit_length (a : List F) (B : List (List F)) :
    (matmulRowJit a B).length = matWidth B := by
  simp [matmulRowJit]

theorem transposeM_length (M : List (List F)) :
    (transposeM M).length = matWidth M := by
  simp [transposeM]

theorem matWidth_transposeM_le (M : List (List F)) :
    matWidth (transposeM M) ≤ M.length := by
  rw [matWidth, transposeM]
  cases hw : matWidth M with
  | zero => simp
  | succ w =>
      rw [List.range_succ_eq_map, List.map_cons, List.headD_cons,
        List.length_map]

theorem genMatrixSys_dropRows (g : List F) (n k : ℕ) :
    (rsGeneratorMatrix g n k true).map (fun row => row.drop k)
      = (List.range k).map (fun i => rsParityRow g n i) := by
  simp only [rsGeneratorMatrix, if_true, List.map_map]
  apply List.map_congr_left
  intro i _
  show (unitRow k i ++ rsParityRow g n i).drop k = rsParityRow g n i
  have h := List.drop_left (unitRow k i : List F) (rsParityRow g n i)
  rw [unitRow_length] at h
  exact h

theorem rsParityRow_toPolyD (α : F) (c twoT n i : ℕ) (hi : twoT + 1 ≤ n - i) :
    toPolyD (rsParityRow (rsGeneratorPolyList α c twoT) n i)
      = -((X : Polynomial F) ^ (n - 1 - i)
          %ₘ toPolyD (rsGeneratorPolyList α c twoT)) := by
  have hg := rsGeneratorPoly_cons α c twoT
  have hmonic : (toPolyD ((1 : F) :: (rsGeneratorPolyList α c twoT).tail)).Monic := by
    rw [← hg]; exact rsGeneratorPoly_monic α c twoT
  have hlen : (rsGeneratorPolyList α c twoT).tail.length + 1
      ≤ (xPowList (n - 1 - i) : List F).length := by
    rw [rsGeneratorPoly_tail_length, xPowList_length]
    omega
  have hdm := polyDivmodList_eq_div_mod (xPowList (n - 1 - i)) 1
      (rsGeneratorPolyList α c twoT).tail one_ne_zero hmonic hlen
  rw [rsParityRow, toPolyD_map_neg, hg, hdm.2, ← hg, toPolyD_xPowList]

theorem rsParityRow_length (α : F) (c twoT n i : ℕ) (hi : twoT + 1 ≤ n - i) :
    (rsParityRow (rsGeneratorPolyList α c twoT) n i).length = twoT := by
  have hg := rsGeneratorPoly_cons α c twoT
  have hlen : (rsGeneratorPolyList α c twoT).tail.length + 1
      ≤ (xPowList (n - 1 - i) : List F).length := by
    rw [rsGeneratorPoly_tail_length, xPowList_length]
    omega
  have spec := polyDivmodList_spec (xPowList (n - 1 - i)) 1
      (rsGeneratorPolyList α c twoT).tail one_ne_zero hlen
  rw [rsParityRow, List.length_map, hg, spec.2.2, rsGeneratorPoly_tail_length]

theorem sum_smul_monomials (m : List F) (twoT : ℕ) :
    ∑ i ∈ Finset.range m.length,
        (m.getD i 0) • ((X : Polynomial F) ^ (m.length + twoT - 1 - i))
      = toPolyD m * X ^ twoT := by
  rw [toPolyD_eq_sum, Finset.sum_mul]
  apply Finset.sum_congr rfl
  intro i hi
  rw [smul_eq_C_mul, mul_assoc, ← pow_add]
  have he : m.length - 1 - i + twoT = m.length + twoT - 1 - i := by
    have := Finset.mem_range.mp hi
    omega
  rw [he]

theorem encodeRow_sys_toPolyD (α : F) (c twoT k : ℕ) (hk : 1 ≤ k) (m : List F)
    (hm : m.length = k) :
    toPolyD (m ++ matmulRowJit m ((List.range k).map
        (fun i => rsParityRow (rsGeneratorPolyList α c twoT) (k + twoT) i)))
      = toPolyD m * X ^ twoT
        - toPolyD m * X ^ twoT %ₘ toPolyD (rsGeneratorPolyList α c twoT) := by
  set g := rsGeneratorPolyList α c twoT with hgdef
  set P := (List.range k).map (fun i => rsParityRow g (k + twoT) i) with hP
  have hplen : P.length = k := by simp [hP]
  have hw0 : P.getD 0 [] = rsParityRow g (k + twoT) 0 := by
    rw [hP, getD_rangeMap _ _ _ _ (by omega)]
  have hwidth : matWidth P = twoT := by
    rw [matWidth, headD_eq_getD_zero, hw0, hgdef]
    exact rsParityRow_length α c twoT (k + twoT) 0 (by omega)
  have hrows : ∀ i, i < P.length → (P.getD i []).length = matWidth P := by
    intro i hi
    rw [hplen] at hi
    rw [hP, getD_rangeMap _ _ _ _ hi, hwidth, hgdef]
    exact rsParityRow_length α c twoT (k + twoT) i (by omega)
  have hrow := toPolyD_matmulRowJit m P hrows
  have hsummand : ∀ i ∈ Finset.range P.length,
      C (m.getD i 0) * toPolyD (P.getD i [])
        = -((m.getD i 0) • ((X : Polynomial F) ^ (k + twoT - 1 - i))
            %ₘ toPolyD g) := by
    intro i hi
    have hik : i < P.length := Finset.mem_range.mp hi
    rw [hplen] at hik
    rw [hP, getD_rangeMap _ _ _ _ hik, hgdef,
      rsParityRow_toPolyD α c twoT (k + twoT) i (by omega),
      mul_neg, ← smul_eq_C_mul, ← smul_modByMonic]
  rw [Finset.sum_congr rfl hsummand] at hrow
  have hmod : ∑ i ∈ Finset.range P.length,
        -((m.getD i 0) • ((X : Polynomial F) ^ (k + twoT - 1 - i)) %ₘ toPolyD g)
      = -((∑ i ∈ Finset.range P.length,
            (m.getD i 0) • ((X : Polynomial F) ^ (k + twoT - 1 - i)))
          %ₘ toPolyD g) := by
    rw [Finset.sum_neg_distrib]
    congr 1
    have hmap := (map_sum (modByMonicHom (toPolyD g))
      (fun i => (m.getD i 0) • ((X : Polynomial F) ^ (k + twoT - 1 - i)))
      (Finset.range P.length)).symm
    simpa only [modByMonicHom_apply] using hmap
  have hsum2 : ∑ i ∈ Finset.range P.length,
        (m.getD i 0) • ((X : Polynomial F) ^ (k + twoT - 1 - i))
      = toPolyD m * X ^ twoT := by
    rw [hplen, ← hm]
    exact sum_smul_monomials m twoT
  rw [hmod, hsum2] at hrow
  rw [toPolyD_append, matmulRowJit_length, hwidth, hrow]
  ring

theorem encodeRow_sys_dvd (α : F) (c twoT k : ℕ) (hk : 1 ≤ k) (m : List F)
    (hm : m.length = k) :
    toPolyD (rsGeneratorPolyList α c twoT)
      ∣ toPolyD (m ++ matmulRowJit m ((List.range k).map
          (fun i => rsParityRow (rsGeneratorPolyList α c twoT) (k + twoT) i))) := by
  rw [encodeRow_sys_toPolyD α c twoT k hk m hm]
  rw [modByMonic_eq_sub_mul_div _ (rsGeneratorPoly_monic α c twoT)]
  exact ⟨toPolyD m * X ^ twoT /ₘ toPolyD (rsGeneratorPolyList α c twoT),
    by ring⟩

theorem syndromeRow_zero (α : F) (c twoT n : ℕ) (cw : List F)
    (hcw : cw.length = n)
    (hdvd : toPolyD (rsGeneratorPolyList α c twoT) ∣ toPolyD cw) :
    ∀ s ∈ matmulRowJit cw
        (transposeM (rsParityCheckMatrix n (rsRootsList α c twoT))), s = 0 := by
  intro s hs
  set H := rsParityCheckMatrix n (rsRootsList α c twoT) with hH
  rw [matmulRowJit_eq] at hs
  obtain ⟨j, hj, rfl⟩ := List.mem_map.mp hs
  have hjr : j < matWidth (transposeM H) := List.mem_range.mp hj
  have hHlen : H.length = twoT := by simp [hH, rsParityCheckMatrix, rsRootsList]
  have hjt : j < twoT := by
    have := matWidth_transposeM_le H
    omega
  have htw : 1 ≤ twoT := by omega
  have hwH : matWidth H = n := by
    rw [matWidth, hH, rsParityCheckMatrix, headD_map _ _ _ 0]
    · simp
    · rw [rsRootsList]
      simp only [ne_eq, List.map_eq_nil_iff, List.range_eq_nil]
      omega
  have hTlen : (transposeM H).length = n := by rw [transposeM_length, hwH]
  set r : F := α ^ (c + j) with hr
  have hHj : H.getD j [] = (List.range n).map (fun j2 => r ^ (n - 1 - j2)) := by
    rw [hH, rsParityCheckMatrix, getD_map_lt _ _ _ _ 0
      (by rw [rsRootsList]; simpa using hjt)]
    rw [rsRootsList, getD_rangeMap _ _ _ _ hjt]
  have hterm : ∀ k2 ∈ Finset.range (transposeM H).length,
      cw.getD k2 0 * ((transposeM H).getD k2 []).getD j 0
        = cw.getD k2 0 * r ^ (n - 1 - k2) := by
    intro k2 hk2
    have hk2n : k2 < n := by
      have := Finset.mem_range.mp hk2
      omega
    have hk2w : k2 < matWidth H := by omega
    rw [transposeM, getD_rangeMap _ _ _ _ (by rw [hwH]; exact hk2n)]
    rw [getD_map_lt _ _ _ _ [] (by rw [hHlen]; exact hjt), hHj,
      getD_rangeMap _ _ _ _ hk2n]
  rw [Finset.sum_congr rfl hterm, hTlen, ← hcw]
  rw [← eval_toPolyD_sum cw r]
  obtain ⟨u, hu⟩ := hdvd
  rw [hu, eval_mul, hr, rsGeneratorPoly_root_eval α c twoT j hjt, zero_mul]

theorem decodeCalcRow_zero_syndrome (p t : ℕ) (BM : List F → List F)
    (ROOTS : List F → List F × List ℕ) (row synd : List F)
    (h : ∀ s ∈ synd, s = 0) :
    decodeCalcRow p t BM ROOTS row synd = (row, 0) := by
  simp only [decodeCalcRow]
  rw [if_pos h]

theorem matWidth_of_rows (l : List (List F)) (k : ℕ) (hne : l ≠ [])
    (h : ∀ r ∈ l, r.length = k) : matWidth l = k := by
  cases l with
  | nil => exact absurd rfl hne
  | cons x xs => exact h x (List.mem_cons_self x xs)

theorem parityMatrix_width (α : F) (c twoT k : ℕ) (hk : 1 ≤ k) :
    matWidth ((List.range k).map
      (fun i => rsParityRow (rsGeneratorPolyList α c twoT) (k + twoT) i))
      = twoT := by
  rw [matWidth, headD_eq_getD_zero, getD_rangeMap _ _ _ _ (by omega)]
  exact rsParityRow_length α c twoT (k + twoT) 0 (by omega)

theorem genMatrix_length (g : List F) (n k : ℕ) (sys : Bool) :
    (rsGeneratorMatrix g n k sys).length = k := by
  cases sys <;> simp [rsGeneratorMatrix]

theorem genMatrixNonsys_row (g : List F) (n k i : ℕ) (hik : i < k) :
    (rsGeneratorMatrix g n k false).getD i []
      = List.replicate i 0 ++ g ++ List.replicate (k - 1 - i) 0 := by
  simp only [rsGeneratorMatrix, Bool.false_eq_true, if_false]
  rw [getD_rangeMap _ _ _ _ hik]

theorem genMatrixNonsys_row_length (α : F) (c twoT k i : ℕ) (hik : i < k) :
    ((rsGeneratorMatrix (rsGeneratorPolyList α c twoT) (k + twoT) k
        false).getD i []).length = k + twoT := by
  rw [genMatrixNonsys_row _ _ _ _ hik]
  simp only [List.length_append, List.length_replicate,
    rsGeneratorPoly_length]
  omega

theorem genMatrixNonsys_width (α : F) (c twoT k : ℕ) (hk : 1 ≤ k) :
    matWidth (rsGeneratorMatrix (rsGeneratorPolyList α c twoT) (k + twoT) k
      false) = k + twoT := by
  rw [matWidth, headD_eq_getD_zero]
  exact genMatrixNonsys_row_length α c twoT k 0 (by omega)

theorem parityCheckMatrix_width (α : F) (c twoT n : ℕ) (htw : 1 ≤ twoT) :
    matWidth (rsParityCheckMatrix n (rsRootsList α c twoT)) = n := by
  rw [matWidth, rsParityCheckMatrix, headD_map _ _ _ 0]
  · simp
  · rw [rsRootsList]
    simp only [ne_eq, List.map_eq_nil_iff, List.range_eq_nil]
    omega

theorem parityCheckMatrix_length (α : F) (c twoT n : ℕ) :
    (rsParityCheckMatrix n (rsRootsList α c twoT)).length = twoT := by
  simp [rsParityCheckMatrix, rsRootsList]

theorem encodeRow_nonsys_toPolyD (α : F) (c twoT k : ℕ) (hk : 1 ≤ k)
    (m : List F) (hm : m.length = k) :
    toPolyD (matmulRowJit m (rsGeneratorMatrix (rsGeneratorPolyList α c twoT)
        (k + twoT) k false))
      = toPolyD (rsGeneratorPolyList α c twoT) * toPolyD m := by
  set g := rsGeneratorPolyList α c twoT with hgdef
  set G := rsGeneratorMatrix g (k + twoT) k false with hG
  have hGlen : G.length = k := genMatrix_length g (k + twoT) k false
  have hrows : ∀ i, i < G.length → (G.getD i []).length = matWidth G := by
    intro i hi
    rw [hGlen] at hi
    rw [hG, hgdef]
    rw [genMatrixNonsys_row_length α c twoT k i hi,
      genMatrixNonsys_width α c twoT k hk]
  rw [toPolyD_matmulRowJit m G hrows, hGlen]
  have hsummand : ∀ i ∈ Finset.range k,
      C (m.getD i 0) * toPolyD (G.getD i [])
        = toPolyD g * (C (m.getD i 0) * X ^ (k - 1 - i)) := by
    intro i hi
    have hik : i < k := Finset.mem_range.mp hi
    rw [hG, hgdef, genMatrixNonsys_row _ _ _ _ hik, List.append_assoc,
      toPolyD_replicate_append, toPolyD_append_zeros, ← hgdef]
    ring
  rw [Finset.sum_congr rfl hsummand, ← Finset.mul_sum]
  congr 1
  rw [toPolyD_eq_sum, hm]

theorem divmod_quotient_recovery (α : F) (c twoT : ℕ) (cw m : List F)
    (hcw : cw.length = m.length + twoT) (hmk : 1 ≤ m.length)
    (hpoly : toPolyD cw = toPolyD (rsGeneratorPolyList α c twoT) * toPolyD m) :
    (polyDivmodList cw (rsGeneratorPolyList α c twoT)).1 = m := by
  have hg := rsGeneratorPoly_cons α c twoT
  have hmonic : (toPolyD ((1 : F) :: (rsGeneratorPolyList α c twoT).tail)).Monic := by
    rw [← hg]; exact rsGeneratorPoly_monic α c twoT
  have hlen : (rsGeneratorPolyList α c twoT).tail.length + 1 ≤ cw.length := by
    rw [rsGeneratorPoly_tail_length]
    omega
  have hdm := polyDivmodList_eq_div_mod cw 1
    (rsGeneratorPolyList α c twoT).tail one_ne_zero hmonic hlen
  have hspec := polyDivmodList_spec cw 1
    (rsGeneratorPolyList α c twoT).tail one_ne_zero hlen
  have hGne : toPolyD ((1 : F) :: (rsGeneratorPolyList α c twoT).tail) ≠ 0 :=
    hmonic.ne_zero
  have hzero : (0 : Polynomial F)
      + toPolyD ((1 : F) :: (rsGeneratorPolyList α c twoT).tail) * toPolyD m
      = toPolyD cw := by
    rw [zero_add, ← hg, ← hpoly]
  have hdeg0 : (0 : Polynomial F).degree
      < (toPolyD ((1 : F) :: (rsGeneratorPolyList α c twoT).tail)).degree := by
    rw [degree_zero]
    exact Ne.bot_lt (fun hbot => hGne (degree_eq_bot.mp hbot))
  have huniq := div_modByMonic_unique (toPolyD m) 0 hmonic ⟨hzero, hdeg0⟩
  apply toPolyD_inj
  · rw [hg, hspec.2.1, rsGeneratorPoly_tail_length]
    omega
  · rw [hg, hdm.1, huniq.1]

theorem encodeRow_sys_length (α : F) (c twoT k : ℕ) (hk : 1 ≤ k) (m : List F)
    (hm : m.length = k) :
    (m ++ matmulRowJit m ((List.range k).map
        (fun i => rsParityRow (rsGeneratorPolyList α c twoT) (k + twoT) i))).length
      = k + twoT := by
  rw [List.length_append, hm, matmulRowJit_length,
    parityMatrix_width α c twoT k hk]

theorem roundtrip_aux (α : F) (c twoT k t2 p : ℕ) (sys : Bool)
    (BM : List F → List F) (ROOTS : List F → List F × List ℕ)
    (msgs : List (List F)) (hk : 1 ≤ k) (htw : 1 ≤ twoT) (hne : msgs ≠ [])
    (hm : ∀ m ∈ msgs, m.length = k) :
    (encodeRS .jit k
        (rsGeneratorMatrix (rsGeneratorPolyList α c twoT) (k + twoT) k sys)
        sys msgs
      >>= decodeRS .jit p k t2 (rsGeneratorPolyList α c twoT)
            (rsParityCheckMatrix (k + twoT) (rsRootsList α c twoT)) sys BM
            ROOTS)
      = .ok (msgs, List.replicate msgs.length 0) := by
  have hmw : matWidth msgs = k := matWidth_of_rows msgs k hne hm
  set g := rsGeneratorPolyList α c twoT with hgdef
  set H := rsParityCheckMatrix (k + twoT) (rsRootsList α c twoT) with hHdef
  have hHt : (transposeM H).length = k + twoT := by
    rw [transposeM_length, hHdef, parityCheckMatrix_width α c twoT _ htw]
  -- the per-message encoded row, in both modes
  set encRow : List F → List F := fun m =>
    if sys then
      m ++ matmulRowJit m ((List.range k).map
        (fun i => rsParityRow g (k + twoT) i))
    else matmulRowJit m (rsGeneratorMatrix g (k + twoT) k false)
    with hencRow
  have hrowlen : ∀ m ∈ msgs, (encRow m).length = k + twoT := by
    intro m hm0
    cases sys with
    | true =>
        simp only [hencRow, if_true]
        exact encodeRow_sys_length α c twoT k hk m (hm m hm0)
    | false =>
        simp only [hencRow, Bool.false_eq_true, if_false]
        rw [matmulRowJit_length, hgdef, genMatrixNonsys_width α c twoT k hk]
  have hrowdvd : ∀ m ∈ msgs, toPolyD g ∣ toPolyD (encRow m) := by
    intro m hm0
    cases sys with
    | true =>
        simp only [hencRow, if_true]
        exact encodeRow_sys_dvd α c twoT k hk m (hm m hm0)
    | false =>
        simp only [hencRow, Bool.false_eq_true, if_false]
        rw [hgdef, encodeRow_nonsys_toPolyD α c twoT k hk m (hm m hm0)]
        exact Dvd.intro _ rfl
  -- encoding computes the mapped rows
  have hencode : encodeRS .jit k (rsGeneratorMatrix g (k + twoT) k sys) sys msgs
      = .ok (msgs.map encRow) := by
    cases sys with
    | true =>
        have hP' := genMatrixSys_dropRows g (k + twoT) k
        have hjm : jitMatmul .jit msgs ((List.range k).map
            (fun i => rsParityRow g (k + twoT) i)) = .ok (matmulRaw msgs
              ((List.range k).map (fun i => rsParityRow g (k + twoT) i))) := by
          unfold jitMatmul
          rw [if_neg (by simp [hmw])]
        simp only [encodeRS, hmw, ne_eq, not_true_eq_false, if_false,
          if_true, hP', hjm]
        simp only [matmulRaw, zipWith_append_map, hencRow, if_true]
    | false =>
        have hjm : jitMatmul .jit msgs (rsGeneratorMatrix g (k + twoT) k false)
            = .ok (matmulRaw msgs (rsGeneratorMatrix g (k + twoT) k false)) := by
          unfold jitMatmul
          rw [if_neg (by simp [hmw, genMatrix_length])]
        simp only [encodeRS, hmw, ne_eq, not_true_eq_false, if_false,
          Bool.false_eq_true, hjm]
        simp only [matmulRaw, hencRow, Bool.false_eq_true, if_false]
  rw [hencode]
  show decodeRS .jit p k t2 g H sys BM ROOTS (msgs.map encRow)
      = .ok (msgs, List.replicate msgs.length 0)
  have hcwne : msgs.map encRow ≠ [] := by
    simp only [ne_eq, List.map_eq_nil_iff]
    exact hne
  have hcww : matWidth (msgs.map encRow) = k + twoT := by
    apply matWidth_of_rows _ _ hcwne
    intro r hr
    obtain ⟨m, hm0, rfl⟩ := List.mem_map.mp hr
    exact hrowlen m hm0
  have hjm2 : jitMatmul .jit (msgs.map encRow) (transposeM H)
      = .ok (matmulRaw (msgs.map encRow) (transposeM H)) := by
    unfold jitMatmul
    rw [if_neg (by rw [hcww, hHt]; simp)]
  have hbatch : decodeCalcBatch p t2 BM ROOTS (msgs.map encRow)
        (matmulRaw (msgs.map encRow) (transposeM H))
      = (msgs.map encRow).map (fun row => (row, (0 : ℤ))) := by
    unfold decodeCalcBatch matmulRaw
    rw [zip_self_map, List.map_map]
    apply List.map_congr_left
    intro row hrow0
    obtain ⟨m, hm0, rfl⟩ := List.mem_map.mp hrow0
    show decodeCalcRow p t2 BM ROOTS (encRow m)
        (matmulRowJit (encRow m) (transposeM H)) = (encRow m, 0)
    apply decodeCalcRow_zero_syndrome
    rw [hHdef]
    exact syndromeRow_zero α c twoT (k + twoT) (encRow m) (hrowlen m hm0)
      (hrowdvd m hm0)
  have hrecover : (if sys = true then (msgs.map encRow).map (fun r => r.take k)
      else (msgs.map encRow).map (fun r => (polyDivmodList r g).1)) = msgs := by
    cases sys with
    | true =>
        simp only [if_true, List.map_map]
        have hcongr : ∀ m ∈ msgs, ((fun r => r.take k) ∘ encRow) m = m := by
          intro m hm0
          have hlen := hm m hm0
          simp only [Function.comp_apply, hencRow, if_true]
          rw [← hlen]
          exact List.take_left _ _
        rw [List.map_congr_left hcongr, List.map_id'']
        exact fun _ => rfl
    | false =>
        simp only [Bool.false_eq_true, if_false, List.map_map]
        have hcongr : ∀ m ∈ msgs,
            ((fun r => (polyDivmodList r g).1) ∘ encRow) m = m := by
          intro m hm0
          simp only [Function.comp_apply, hencRow, Bool.false_eq_true, if_false]
          rw [hgdef]
          apply divmod_quotient_recovery α c twoT _ m
          · rw [← hgdef]
            have := hrowlen m hm0
            simp only [hencRow, Bool.false_eq_true, if_false] at this
            rw [this, hm m hm0]
          · rw [hm m hm0]; exact hk
          · rw [← hgdef, encodeRow_nonsys_toPolyD α c twoT k hk m (hm m hm0)]
        rw [List.map_congr_left hcongr, List.map_id'']
        exact fun _ => rfl
  simp only [decodeRS, hjm2, hbatch, List.map_map]
  have hfst : ((fun row => (row, (0 : ℤ))) ∘ encRow) = fun m => (encRow m, (0 : ℤ)) := rfl
  simp only [hfst]
  have hfst2 : msgs.map (Prod.fst ∘ fun m => (encRow m, (0 : ℤ))) = msgs.map encRow := rfl
  have hsnd2 : msgs.map (Prod.snd ∘ fun m => (encRow m, (0 : ℤ)))
      = List.replicate msgs.length 0 := by
    have : msgs.map (Prod.snd ∘ fun m => (encRow m, (0 : ℤ)))
        = msgs.map (fun _ => (0 : ℤ)) := rfl
    rw [this, List.map_const']
  simp only [← List.map_map, hfst2, hsnd2, hrecover]
  rfl

theorem hornerFoldl (l : List F) (x a : F) :
    l.foldl (fun acc c => c + acc * x) a = (toPolyD l).eval x + a * x ^ l.length := by
  induction l generalizing a with
  | nil => simp [toPolyD_nil]
  | cons cj rest ih =>
      rw [List.foldl_cons, ih (cj + a * x), toPolyD_cons, eval_add, eval_mul,
        eval_C, eval_pow, eval_X, List.length_cons]
      ring

theorem hornerEval_eq_eval (l : List F) (x : F) :
    hornerEval l x = (toPolyD l).eval x := by
  cases l with
  | nil => simp [hornerEval, toPolyD_nil]
  | cons c rest =>
      show rest.foldl (fun acc cj => cj + acc * x) c = _
      rw [hornerFoldl rest x c, toPolyD_cons, eval_add, eval_mul, eval_C,
        eval_pow, eval_X]
      ring

theorem getD_set_self (l : List F) (i : ℕ) (a : F) (h : i < l.length) :
    (l.set i a).getD i 0 = a := by
  rw [List.getD_eq_getElem?_getD, List.getElem?_set_eq h]
  rfl

theorem getD_set_ne (l : List F) (i j : ℕ) (a : F) (h : i ≠ j) :
    (l.set i a).getD j 0 = l.getD j 0 := by
  rw [List.getD_eq_getElem?_getD, List.getElem?_set_ne h,
    ← List.getD_eq_getElem?_getD]

theorem foldl_set_length (posf : ℕ → ℕ) (d : ℕ → F) (L : List ℕ)
    (acc : List F) :
    (L.foldl (fun r j => r.set (posf j) (r.getD (posf j) 0 - d j)) acc).length
      = acc.length := by
  induction L generalizing acc with
  | nil => rfl
  | cons j0 L2 ih => rw [List.foldl_cons, ih, List.length_set]

theorem foldl_set_untouched (posf : ℕ → ℕ) (d : ℕ → F) (L : List ℕ)
    (acc : List F) (i : ℕ) (hni : ∀ j ∈ L, posf j ≠ i) :
    (L.foldl (fun r j => r.set (posf j) (r.getD (posf j) 0 - d j)) acc).getD i 0
      = acc.getD i 0 := by
  induction L generalizing acc with
  | nil => rfl
  | cons j0 L2 ih =>
      rw [List.foldl_cons, ih _ (fun j hj => hni j (List.mem_cons_of_mem _ hj)),
        getD_set_ne _ _ _ _ (hni j0 (List.mem_cons_self _ _))]

theorem foldl_set_getD (posf : ℕ → ℕ) (d : ℕ → F) (L : List ℕ)
    (acc : List F) (hnd : L.Nodup)
    (hlt : ∀ j ∈ L, posf j < acc.length)
    (hinj : ∀ j1 ∈ L, ∀ j2 ∈ L, j1 ≠ j2 → posf j1 ≠ posf j2)
    (j : ℕ) (hj : j ∈ L) :
    (L.foldl (fun r j2 => r.set (posf j2) (r.getD (posf j2) 0 - d j2))
        acc).getD (posf j) 0
      = acc.getD (posf j) 0 - d j := by
  induction L generalizing acc with
  | nil => exact absurd hj (List.not_mem_nil j)
  | cons j0 L2 ih =>
      rw [List.foldl_cons]
      rcases List.mem_cons.mp hj with hj0 | hj2
      · subst hj0
        have hnotin : j ∉ L2 := (List.nodup_cons.mp hnd).1
        rw [foldl_set_untouched]
        · exact getD_set_self _ _ _ (hlt j (List.mem_cons_self _ _))
        · intro j2 hj2 heq
          exact hinj j2 (List.mem_cons_of_mem _ hj2) j (List.mem_cons_self _ _)
            (fun h => hnotin (h ▸ hj2)) heq
      · have hne0 : j ≠ j0 := by
          intro h
          exact (List.nodup_cons.mp hnd).1 (h ▸ hj2)
        rw [ih _ (List.nodup_cons.mp hnd).2
            (fun j2 hj3 => by
              rw [List.length_set]
              exact hlt j2 (List.mem_cons_of_mem _ hj3))
            (fun j1 h1 j2 h2 hne =>
              hinj j1 (List.mem_cons_of_mem _ h1) j2 (List.mem_cons_of_mem _ h2)
                hne) hj2]
        rw [getD_set_ne _ _ _ _
          (hinj j0 (List.mem_cons_self _ _) j (List.mem_cons_of_mem _ hj2)
            (fun h => hne0 h.symm))]

theorem correctionLoop_eq_fold (row : List F) (v : ℕ) (beta : List F)
    (locs : List ℕ) (sp Z0 : List F) :
    correctionLoop row v beta locs sp Z0
      = (List.range v).foldl (fun r j =>
          r.set (row.length - 1 - locs.getD j 0)
            (r.getD (row.length - 1 - locs.getD j 0) 0
              - (0 - hornerEval Z0 (beta.getD j 0)⁻¹)
                * (hornerEval sp (beta.getD j 0)⁻¹)⁻¹)) row := by
  unfold correctionLoop
  suffices h : ∀ (L : List ℕ) (acc : List F), acc.length = row.length →
      L.foldl (fun r j =>
        r.set (r.length - 1 - locs.getD j 0)
          (r.getD (r.length - 1 - locs.getD j 0) 0
            - (0 - hornerEval Z0 (beta.getD j 0)⁻¹)
              * (hornerEval sp (beta.getD j 0)⁻¹)⁻¹)) acc
      = L.foldl (fun r j =>
        r.set (row.length - 1 - locs.getD j 0)
          (r.getD (row.length - 1 - locs.getD j 0) 0
            - (0 - hornerEval Z0 (beta.getD j 0)⁻¹)
              * (hornerEval sp (beta.getD j 0)⁻¹)⁻¹)) acc by
    exact h (List.range v) row rfl
  intro L
  induction L with
  | nil => intro acc _; rfl
  | cons j0 L2 ih =>
      intro acc hlen
      rw [List.foldl_cons, List.foldl_cons, hlen,
        ih _ (by rw [List.length_set, hlen])]

theorem decodeCalcRow_eq (p t : ℕ) (BM : List F → List F)
    (ROOTS : List F → List F × List ℕ) (row synd : List F) :
    decodeCalcRow p t BM ROOTS row synd
      = if ∀ s ∈ synd, s = 0 then (row, 0)
        else if (t : ℤ) < ((BM synd).length : ℤ) - 1 then (row, -1)
        else if (((ROOTS (BM synd.reverse)).1.length : ℤ))
            ≠ ((BM synd).length : ℤ) - 1 then (row, -1)
        else (correctionLoop row ((BM synd).length - 1)
            (ROOTS (BM synd.reverse)).1 (ROOTS (BM synd.reverse)).2
            (sigmaPrimeOf p (BM synd)) (errorEvalZ0 (BM synd) synd),
          ((BM synd).length : ℤ) - 1) := rfl

theorem natCast_mod_charP (p : ℕ) [CharP F p] (a : ℕ) :
    (((a % p : ℕ)) : F) = (a : F) := by
  conv_rhs => rw [← Nat.div_add_mod a p]
  push_cast
  rw [CharP.cast_eq_zero F p]
  ring

theorem sigmaPrimeOf_toPolyD (p : ℕ) [CharP F p] (sigma : List F)
    (hs : sigma ≠ []) :
    toPolyD (sigmaPrimeOf p sigma) = derivative (toPolyD sigma) := by
  obtain ⟨vn, hvn⟩ : ∃ vn, sigma.length = vn + 1 :=
    ⟨sigma.length - 1, by
      have : 0 < sigma.length := List.length_pos.mpr hs
      omega⟩
  have hlen : (sigmaPrimeOf p sigma).length = vn := by
    simp [sigmaPrimeOf, hvn]
  rw [toPolyD_eq_sum sigma, hvn, derivative_sum]
  rw [toPolyD_eq_sum (sigmaPrimeOf p sigma), hlen]
  rw [Finset.sum_range_succ]
  have hlast : derivative (C (sigma.getD vn 0)
      * (X : Polynomial F) ^ (vn + 1 - 1 - vn)) = 0 := by
    have : vn + 1 - 1 - vn = 0 := by omega
    rw [this, pow_zero, mul_one, derivative_C]
  rw [hlast, add_zero]
  apply Finset.sum_congr rfl
  intro i hi
  have hiv : i < vn := Finset.mem_range.mp hi
  rw [derivative_C_mul_X_pow]
  have hgd : (sigmaPrimeOf p sigma).getD i 0
      = ((((vn - i) % p : ℕ)) : F) * sigma.getD i 0 := by
    rw [sigmaPrimeOf, hvn]
    simp only [Nat.add_sub_cancel]
    rw [getD_rangeMap _ _ _ _ hiv]
  rw [hgd, natCast_mod_charP p (vn - i)]
  have he1 : vn + 1 - 1 - i = vn - i := by omega
  rw [he1]
  have he2 : vn - i - 1 = vn - 1 - i := by omega
  rw [he2]
  rw [mul_comm (((vn - i : ℕ)) : F) (sigma.getD i 0)]

theorem dedup_replicate_succ {β : Type} [DecidableEq β] (e : ℕ) (a : β) :
    (List.replicate (e + 1) a).dedup = [a] := by
  induction e with
  | zero => simp
  | succ e ih =>
      rw [List.replicate_succ, List.dedup_cons_of_mem (by simp), ih]

theorem primeFactorsDistinct_length_one (x : ℕ) :
    (primeFactorsDistinct x).length = 1 ↔ IsPrimePow x := by
  constructor
  · intro h
    obtain ⟨q, hq⟩ := List.length_eq_one.mp h
    have hmem : ∀ b ∈ x.primeFactorsList, b = q := by
      intro b hb
      have hbd : b ∈ primeFactorsDistinct x := List.mem_dedup.mpr hb
      rw [hq] at hbd
      simpa using hbd
    have hqmem : q ∈ x.primeFactorsList := by
      have hqd : q ∈ primeFactorsDistinct x := by rw [hq]; simp
      exact List.mem_dedup.mp hqd
    have hxne : x ≠ 0 := by
      intro h0
      rw [h0] at hqmem
      simp [Nat.primeFactorsList_zero] at hqmem
    have hrep : x.primeFactorsList
        = List.replicate x.primeFactorsList.length q :=
      List.eq_replicate_of_mem hmem
    have hlen1 : 1 ≤ x.primeFactorsList.length :=
      List.length_pos.mpr (fun hemp => by
        rw [hemp] at hqmem
        exact List.not_mem_nil q hqmem)
    rw [isPrimePow_nat_iff]
    refine ⟨q, x.primeFactorsList.length,
      Nat.prime_of_mem_primeFactorsList hqmem, by omega, ?_⟩
    calc q ^ x.primeFactorsList.length
        = (List.replicate x.primeFactorsList.length q).prod :=
          (List.prod_replicate _ _).symm
      _ = x.primeFactorsList.prod := by rw [← hrep]
      _ = x := Nat.prod_primeFactorsList hxne
  · intro h
    obtain ⟨q, e, hq, he, hx⟩ := (isPrimePow_nat_iff x).mp h
    subst hx
    rw [primeFactorsDistinct, hq.primeFactorsList_pow]
    obtain ⟨e2, rfl⟩ : ∃ e2, e = e2 + 1 := ⟨e - 1, by omega⟩
    rw [dedup_replicate_succ]
    rfl

theorem primeFactorsDistinct_pow (x : ℕ)
    (hx : (primeFactorsDistinct x).length = 1) :
    ((primeFactorsDistinct x).headD 0) ^ x.primeFactorsList.length = x := by
  obtain ⟨q, hq⟩ := List.length_eq_one.mp hx
  have hmem : ∀ b ∈ x.primeFactorsList, b = q := by
    intro b hb
    have hbd : b ∈ primeFactorsDistinct x := List.mem_dedup.mpr hb
    rw [hq] at hbd
    simpa using hbd
  have hqmem : q ∈ x.primeFactorsList := by
    have hqd : q ∈ primeFactorsDistinct x := by rw [hq]; simp
    exact List.mem_dedup.mp hqd
  have hxne : x ≠ 0 := by
    intro h0
    rw [h0] at hqmem
    simp [Nat.primeFactorsList_zero] at hqmem
  have hrep : x.primeFactorsList
      = List.replicate x.primeFactorsList.length q :=
    List.eq_replicate_of_mem hmem
  rw [hq]
  simp only [List.headD_cons]
  calc q ^ x.primeFactorsList.length
      = (List.replicate x.primeFactorsList.length q).prod :=
        (List.prod_replicate _ _).symm
    _ = x.primeFactorsList.prod := by rw [← hrep]
    _ = x := Nat.prod_primeFactorsList hxne

theorem constructedOrder_rsConstruct (α : F) (n k c : ℕ) (sys : Bool) :
    constructedOrder (rsConstruct α n k c sys)
      = if ((n : ℤ) - (k : ℤ)) % 2 ≠ 0 then none
        else if (primeFactorsDistinct (n + 1)).length ≠ 1 then none
        else if c < 1 then none
        else some ((primeFactorsDistinct (n + 1)).headD 0
          ^ (n + 1).primeFactorsList.length) := by
  unfold rsConstruct rsCheckField constructedOrder
  by_cases h1 : ((n : ℤ) - (k : ℤ)) % 2 ≠ 0
  · simp only [if_pos h1]
  · simp only [if_neg h1]
    by_cases h2 : (primeFactorsDistinct (n + 1)).length ≠ 1
    · simp only [if_pos h2]
    · simp only [if_neg h2]
      by_cases h3 : c < 1
      · simp only [if_pos h3]
      · simp only [if_neg h3]

theorem decodeRS_eq (mode : UfuncMode) (p k t : ℕ) (g : List F)
    (H : List (List F)) (sys : Bool) (BM : List F → List F)
    (ROOTS : List F → List F × List ℕ) (cw : List (List F)) :
    decodeRS mode p k t g H sys BM ROOTS cw
      = if matWidth cw ≠ (transposeM H).length then .error .shapeMismatch
        else if mode = .pythonCalculate then .error .notImplemented
        else .ok
          ((if sys then ((decodeCalcBatch p t BM ROOTS cw
              (matmulRaw cw (transposeM H))).map Prod.fst).map
                (fun r => r.take k)
            else ((decodeCalcBatch p t BM ROOTS cw
              (matmulRaw cw (transposeM H))).map Prod.fst).map
                (fun r => (polyDivmodList r g).1)),
           (decodeCalcBatch p t BM ROOTS cw
             (matmulRaw cw (transposeM H))).map Prod.snd) := by
  cases mode with
  | pythonCalculate =>
      unfold decodeRS jitMatmul
      by_cases h : matWidth cw ≠ (transposeM H).length
      · rw [if_pos h, if_pos h]
      · rw [if_neg h, if_neg h]
        rfl
  | jit =>
      unfold decodeRS jitMatmul
      by_cases h : matWidth cw ≠ (transposeM H).length
      · rw [if_pos h, if_pos h]
      · rw [if_neg h, if_neg h]

theorem decodeCalcBatch_map (p t : ℕ) (BM : List F → List F)
    (ROOTS : List F → List F × List ℕ) (b : List (List F))
    (Ht : List (List F)) :
    decodeCalcBatch p t BM ROOTS b (matmulRaw b Ht)
      = b.map (fun r => decodeCalcRow p t BM ROOTS r (matmulRowJit r Ht)) := by
  unfold decodeCalcBatch matmulRaw
  rw [zip_self_map, List.map_map]
  rfl

end PolyLemmas

instance fact_prime_five : Fact (Nat.Prime 5) := ⟨by norm_num⟩

instance fact_prime_seven : Fact (Nat.Prime 7) := ⟨by norm_num⟩

section Claims

open Polynomial

set_option linter.unusedSectionVars false

/-- Claim C1: for every Reed-Solomon code with valid parameters (message size
`k ≥ 1`, capability `t ≥ 1` so `n = k + 2t`, offset `c`) over any field with
any generator element `α`, and every batch of messages whose rows have length
`k`, `decode (encode msgs)` returns the original messages with a reported
corrected-error count of `0` for every row, in both systematic and
non-systematic modes.  A single message is the batch `[m]` (the source's
`np.atleast_2d`).  The berlekamp-massey and root-finding kernels are
arbitrary, as the zero-syndrome path never consults them. -/
theorem claim_C1_decode_encode_roundtrip (F : Type) [Field F] [DecidableEq F]
    (α : F) (k t c p : ℕ) (sys : Bool) (BM : List F → List F)
    (ROOTS : List F → List F × List ℕ) (msgs : List (List F))
    (hk : 1 ≤ k) (ht : 1 ≤ t) (hne : msgs ≠ [])
    (hm : ∀ m ∈ msgs, m.length = k) :
    (encodeRS .jit k
        (rsGeneratorMatrix (rsGeneratorPolyList α c (2 * t)) (k + 2 * t) k sys)
        sys msgs
      >>= decodeRS .jit p k t (rsGeneratorPolyList α c (2 * t))
            (rsParityCheckMatrix (k + 2 * t) (rsRootsList α c (2 * t))) sys BM
            ROOTS)
      = .ok (msgs, List.replicate msgs.length 0) :=
  roundtrip_aux α c (2 * t) k t p sys BM ROOTS msgs hk (by omega) hne hm

/-- Witness for C1: the concrete RS(4, 2) code over GF(5) in systematic mode,
on the single-message batch `[[1, 2]]`. -/
theorem claim_C1_witness :
    ((1 ≤ 2 ∧ 1 ≤ 1 ∧ ([[(1 : ZMod 5), 2]] ≠ ([] : List (List (ZMod 5))))
        ∧ ∀ m ∈ [[(1 : ZMod 5), 2]], m.length = 2))
    ∧ (encodeRS .jit 2
        (rsGeneratorMatrix (rsGeneratorPolyList (2 : ZMod 5) 1 (2 * 1))
          (2 + 2 * 1) 2 true) true [[1, 2]]
      >>= decodeRS .jit 5 2 1 (rsGeneratorPolyList (2 : ZMod 5) 1 (2 * 1))
            (rsParityCheckMatrix (2 + 2 * 1) (rsRootsList (2 : ZMod 5) 1 (2 * 1)))
            true (fun _ => []) (fun _ => ([], [])))
      = .ok ([[1, 2]], List.replicate ([[(1 : ZMod 5), 2]]).length 0) :=
  ⟨⟨by decide, by decide, by decide, by decide⟩,
    claim_C1_decode_encode_roundtrip (ZMod 5) 2 2 1 1 5 true (fun _ => [])
      (fun _ => ([], [])) [[1, 2]] (by decide) (by decide) (by decide)
      (by decide)⟩

/-- Claim C2: the reported error count of a decoded codeword is `-1` exactly
when its syndrome is non-zero and either `v = deg(sigma) > t` (with
`v = sigma.size - 1` as `decode_calculate` computes it) or the number of roots
of `sigma_rev` found differs from `v`; in that case the codeword symbols are
returned untouched (a best-effort message is later sliced from them), every
row of a batch is still processed (the batch result has one entry per
codeword), and the decoder is a total function, so no exception is raised. -/
theorem claim_C2_uncorrectable_reporting (F : Type) [Field F] [DecidableEq F]
    (p t : ℕ) (BM : List F → List F) (ROOTS : List F → List F × List ℕ)
    (row synd : List F) :
    ((decodeCalcRow p t BM ROOTS row synd).2 = -1
      ↔ ¬ (∀ s ∈ synd, s = 0)
        ∧ ((t : ℤ) < ((BM synd).length : ℤ) - 1
          ∨ (((ROOTS (BM synd.reverse)).1.length : ℤ))
              ≠ ((BM synd).length : ℤ) - 1))
    ∧ ((decodeCalcRow p t BM ROOTS row synd).2 = -1
        → (decodeCalcRow p t BM ROOTS row synd).1 = row)
    ∧ ∀ (cw synds : List (List F)),
        (decodeCalcBatch p t BM ROOTS cw synds).length
          = min cw.length synds.length := by
  rw [decodeCalcRow_eq]
  by_cases h0 : ∀ s ∈ synd, s = 0
  · rw [if_pos h0]
    refine ⟨⟨fun h => absurd h (by norm_num), fun h => absurd h0 h.1⟩,
      fun h => absurd h (by norm_num), fun cw synds => ?_⟩
    simp [decodeCalcBatch]
  · rw [if_neg h0]
    by_cases h1 : (t : ℤ) < ((BM synd).length : ℤ) - 1
    · rw [if_pos h1]
      exact ⟨⟨fun _ => ⟨h0, Or.inl h1⟩, fun _ => rfl⟩, fun _ => rfl,
        fun cw synds => by simp [decodeCalcBatch]⟩
    · rw [if_neg h1]
      by_cases h2 : (((ROOTS (BM synd.reverse)).1.length : ℤ))
          ≠ ((BM synd).length : ℤ) - 1
      · rw [if_pos h2]
        exact ⟨⟨fun _ => ⟨h0, Or.inr h2⟩, fun _ => rfl⟩, fun _ => rfl,
          fun cw synds => by simp [decodeCalcBatch]⟩
      · rw [if_neg h2]
        push_neg at h2
        refine ⟨⟨fun habs => ?_, fun h => ?_⟩, fun habs => ?_,
          fun cw synds => by simp [decodeCalcBatch]⟩
        · exfalso
          simp only at habs
          omega
        · rcases h.2 with hcase | hcase
          · exact absurd hcase h1
          · exact absurd h2 hcase
        · exfalso
          simp only at habs
          omega

/-- Claim C3: `ReedSolomon` construction reports a typed error, with no
generator polynomial, matrix or other state built (the checks of
`_check_and_compute_field` run before `rs_generator_poly` constructs
anything), exactly when `n + 1` is not a prime power, `n - k` is odd, or
`c < 1`; with valid parameters construction succeeds and the field order is
fixed at `q = n + 1`. -/
theorem claim_C3_construction_checks (F : Type) [Field F] [DecidableEq F]
    (α : F) (n k c : ℕ) (sys : Bool) :
    (constructedOrder (rsConstruct α n k c sys) = none
      ↔ ¬ IsPrimePow (n + 1) ∨ ¬ (2 : ℤ) ∣ ((n : ℤ) - (k : ℤ)) ∨ c < 1)
    ∧ (∀ s : RSCodeData F, rsConstruct α n k c sys = .ok s → s.q = n + 1) := by
  have heq := constructedOrder_rsConstruct α n k c sys
  constructor
  · rw [heq]
    by_cases h1 : ((n : ℤ) - (k : ℤ)) % 2 ≠ 0
    · rw [if_pos h1]
      simp only [true_iff]
      refine Or.inr (Or.inl ?_)
      rw [Int.dvd_iff_emod_eq_zero]
      exact h1
    · rw [if_neg h1]
      push_neg at h1
      by_cases h2 : (primeFactorsDistinct (n + 1)).length ≠ 1
      · rw [if_pos h2]
        simp only [true_iff]
        refine Or.inl ?_
        rw [← primeFactorsDistinct_length_one]
        exact h2
      · rw [if_neg h2]
        push_neg at h2
        by_cases h3 : c < 1
        · rw [if_pos h3]
          simp only [true_iff]
          exact Or.inr (Or.inr h3)
        · rw [if_neg h3]
          simp only [reduceCtorEq, false_iff]
          push_neg
          refine ⟨(primeFactorsDistinct_length_one (n + 1)).mp h2, ?_, by omega⟩
          rw [Int.dvd_iff_emod_eq_zero]
          exact h1
  · intro s hs
    have hsome : constructedOrder (rsConstruct α n k c sys) = some s.q := by
      rw [hs]; rfl
    rw [heq] at hsome
    by_cases h1 : ((n : ℤ) - (k : ℤ)) % 2 ≠ 0
    · rw [if_pos h1] at hsome; exact absurd hsome (by simp)
    · rw [if_neg h1] at hsome
      by_cases h2 : (primeFactorsDistinct (n + 1)).length ≠ 1
      · rw [if_pos h2] at hsome; exact absurd hsome (by simp)
      · rw [if_neg h2] at hsome
        by_cases h3 : c < 1
        · rw [if_pos h3] at hsome; exact absurd hsome (by simp)
        · rw [if_neg h3] at hsome
          have hq := Option.some.inj hsome
          push_neg at h2
          rw [← hq, primeFactorsDistinct_pow (n + 1) h2]

/-- Claim C4: the constructed generator polynomial equals the product
`∏_{i=0}^{2t-1} (x - α^{c+i})` of linear factors at consecutive powers of the
field's primitive element `α`, and the exposed roots are exactly the `2t`
consecutive powers `α^c, ..., α^{c+2t-1}`, in that order. -/
theorem claim_C4_generator_poly_and_roots (F : Type) [Field F]
    [DecidableEq F] (α : F) (t c : ℕ) :
    toPolyD (rsGeneratorPolyList α c (2 * t))
        = ∏ i ∈ Finset.range (2 * t), (X - C (α ^ (c + i)))
    ∧ rsRootsList α c (2 * t)
        = (List.range (2 * t)).map (fun i => α ^ (c + i)) :=
  ⟨rsGeneratorPoly_toPolyD α c (2 * t), rfl⟩

/-- Claim C6: `ReedSolomon.decode` on an input batch whose last dimension is
not `n` fails with the typed shape error raised by the syndrome multiply's
shape guard before any decode work, and this is the only way decode reports
a shape error: the result is `ShapeMismatch` exactly when the width differs
from `n`.  (Wrong-typed inputs cannot be expressed in the typed embedding.) -/
theorem claim_C6_decode_shape_guard (F : Type) [Field F] [DecidableEq F]
    (mode : UfuncMode) (α : F) (p k t c : ℕ) (g : List F) (sys : Bool)
    (BM : List F → List F) (ROOTS : List F → List F × List ℕ)
    (cw : List (List F)) (ht : 1 ≤ t) :
    decodeRS mode p k t g
        (rsParityCheckMatrix (k + 2 * t) (rsRootsList α c (2 * t))) sys BM
        ROOTS cw
      = .error .shapeMismatch
    ↔ matWidth cw ≠ k + 2 * t := by
  have hHt : (transposeM (rsParityCheckMatrix (k + 2 * t)
      (rsRootsList α c (2 * t)))).length = k + 2 * t := by
    rw [transposeM_length, parityCheckMatrix_width α c (2 * t) _ (by omega)]
  rw [decodeRS_eq, hHt]
  by_cases hw : matWidth cw ≠ k + 2 * t
  · rw [if_pos hw]
    simp [hw]
  · rw [if_neg hw]
    by_cases hm : mode = .pythonCalculate
    · rw [if_pos hm]
      simp [hw]
    · rw [if_neg hm]
      simp [hw]

/-- Witness for C6: a codeword of width 3 fed to the RS(4, 2) decoder over
GF(5) yields exactly the shape error. -/
theorem claim_C6_witness :
    (1 ≤ 1)
    ∧ (decodeRS .jit 5 2 1 ([1] : List (ZMod 5))
        (rsParityCheckMatrix (2 + 2 * 1) (rsRootsList (2 : ZMod 5) 1 (2 * 1)))
        true (fun _ => []) (fun _ => ([], [])) [[1, 2, 3]]
      = .error .shapeMismatch
      ↔ matWidth [[(1 : ZMod 5), 2, 3]] ≠ 2 + 2 * 1) :=
  ⟨by decide,
    claim_C6_decode_shape_guard (ZMod 5) .jit (2 : ZMod 5) 5 2 1 1 [1] true
      (fun _ => []) (fun _ => ([], [])) [[1, 2, 3]] (by decide)⟩

/-- Claim C7: `matmul` on 2-D field matrices fails with the shape error
exactly when the number of columns of `A` differs from the number of rows of
`B`, and otherwise returns the exact field-valued product (no floating point
exists in the model; the result is the algebraic contraction), on the generic
extension-field path (both the JIT triple loop and the python kernel) and on
the prime-field `_lapack_linalg` path over `ZMod p`. -/
theorem claim_C7_matmul_exact :
    (∀ (F : Type) [Field F] [DecidableEq F] (mode : UfuncMode)
        (A B : List (List F)),
      (jitMatmul mode A B = .error .shapeMismatch ↔ matWidth A ≠ B.length)
      ∧ (matWidth A = B.length → jitMatmul mode A B = .ok (matProdSpec A B)))
    ∧ (∀ (p : ℕ) [Fact (Nat.Prime p)] (A B : List (List (ZMod p))),
      (lapackLinalg p A B = .error .shapeMismatch ↔ matWidth A ≠ B.length)
      ∧ (matWidth A = B.length → lapackLinalg p A B = .ok (matProdSpec A B))) := by
  constructor
  · intro F _ _ mode A B
    constructor
    · unfold jitMatmul
      by_cases h : matWidth A ≠ B.length
      · rw [if_pos h]
        simp [h]
      · rw [if_neg h]
        simp [h]
    · intro hw
      unfold jitMatmul
      rw [if_neg (by rw [hw]; simp)]
      cases mode with
      | pythonCalculate => rw [matmulPythonRaw_eq_spec]
      | jit => rw [matmulRaw_eq_spec]
  · intro p _ A B
    rw [lapackLinalg_eq_spec]
    constructor
    · by_cases h : matWidth A ≠ B.length
      · rw [if_pos h]
        simp [h]
      · rw [if_neg h]
        simp [h]
    · intro hw
      rw [if_neg (by rw [hw]; simp)]

/-- Witness for C7: concrete 2x2 by 2x1 products over GF(7) (generic path)
and GF(5) (prime path), with matching shapes. -/
theorem claim_C7_witness :
    (matWidth [[(1 : ZMod 7), 2], [3, 4]] = ([[5], [6]] : List (List (ZMod 7))).length
      ∧ jitMatmul .jit [[(1 : ZMod 7), 2], [3, 4]] [[5], [6]]
          = .ok (matProdSpec [[(1 : ZMod 7), 2], [3, 4]] [[5], [6]]))
    ∧ (matWidth [[(1 : ZMod 5), 2], [3, 4]] = ([[5], [6]] : List (List (ZMod 5))).length
      ∧ lapackLinalg 5 [[(1 : ZMod 5), 2], [3, 4]] [[5], [6]]
          = .ok (matProdSpec [[(1 : ZMod 5), 2], [3, 4]] [[5], [6]])) :=
  ⟨⟨by decide, (claim_C7_matmul_exact.1 (ZMod 7) .jit [[1, 2], [3, 4]]
      [[5], [6]]).2 (by decide)⟩,
   ⟨by decide, (claim_C7_matmul_exact.2 5 [[1, 2], [3, 4]] [[5], [6]]).2
      (by decide)⟩⟩

/-- Claim C8: batch decode is row-noninterfering: the decoded message and
reported error count of row `i` depend only on row `i` of the input batch
(and the fixed code configuration); two batches agreeing on row `i` produce
identical results there even if other rows differ or are uncorrectable. -/
theorem claim_C8_row_noninterference (F : Type) [Field F] [DecidableEq F]
    (p k t n : ℕ) (g : List F) (H : List (List F)) (sys : Bool)
    (BM : List F → List F) (ROOTS : List F → List F × List ℕ)
    (b1 b2 : List (List F)) (i : ℕ)
    (hH : (transposeM H).length = n)
    (h1 : ∀ r ∈ b1, r.length = n) (h2 : ∀ r ∈ b2, r.length = n)
    (hne1 : b1 ≠ []) (hne2 : b2 ≠ [])
    (hi : b1.get? i = b2.get? i) :
    msgsAt (decodeRS .jit p k t g H sys BM ROOTS b1) i
      = msgsAt (decodeRS .jit p k t g H sys BM ROOTS b2) i
    ∧ errsAt (decodeRS .jit p k t g H sys BM ROOTS b1) i
      = errsAt (decodeRS .jit p k t g H sys BM ROOTS b2) i := by
  have hw1 : matWidth b1 = n := matWidth_of_rows b1 n hne1 h1
  have hw2 : matWidth b2 = n := matWidth_of_rows b2 n hne2 h2
  rw [decodeRS_eq, decodeRS_eq,
    if_neg (show ¬matWidth b1 ≠ (transposeM H).length by rw [hw1, hH]; simp),
    if_neg (show ¬(UfuncMode.jit = UfuncMode.pythonCalculate) by simp),
    if_neg (show ¬matWidth b2 ≠ (transposeM H).length by rw [hw2, hH]; simp),
    if_neg (show ¬(UfuncMode.jit = UfuncMode.pythonCalculate) by simp),
    decodeCalcBatch_map, decodeCalcBatch_map]
  cases sys with
  | true =>
      simp only [if_true, msgsAt, errsAt, List.map_map, List.get?_map, hi]
      exact ⟨trivial, trivial⟩
  | false =>
      simp only [Bool.false_eq_true, if_false, msgsAt, errsAt, List.map_map,
        List.get?_map, hi]
      exact ⟨trivial, trivial⟩

/-- Witness for C8: two GF(5) batches sharing row 0 (the second has an extra
all-zero row) decode identically at row 0. -/
theorem claim_C8_witness :
    ((transposeM (rsParityCheckMatrix 4 (rsRootsList (2 : ZMod 5) 1 2))).length = 4
      ∧ (∀ r ∈ [[(1 : ZMod 5), 2, 3, 4]], r.length = 4)
      ∧ (∀ r ∈ [[(1 : ZMod 5), 2, 3, 4], [0, 0, 0, 0]], r.length = 4)
      ∧ ([[(1 : ZMod 5), 2, 3, 4]] ≠ ([] : List (List (ZMod 5))))
      ∧ ([[(1 : ZMod 5), 2, 3, 4], [0, 0, 0, 0]] ≠ ([] : List (List (ZMod 5))))
      ∧ ([[(1 : ZMod 5), 2, 3, 4]].get? 0
          = [[(1 : ZMod 5), 2, 3, 4], [0, 0, 0, 0]].get? 0))
    ∧ (msgsAt (decodeRS .jit 5 2 1 (rsGeneratorPolyList (2 : ZMod 5) 1 2)
          (rsParityCheckMatrix 4 (rsRootsList (2 : ZMod 5) 1 2)) true
          (fun _ => []) (fun _ => ([], [])) [[1, 2, 3, 4]]) 0
        = msgsAt (decodeRS .jit 5 2 1 (rsGeneratorPolyList (2 : ZMod 5) 1 2)
          (rsParityCheckMatrix 4 (rsRootsList (2 : ZMod 5) 1 2)) true
          (fun _ => []) (fun _ => ([], [])) [[1, 2, 3, 4], [0, 0, 0, 0]]) 0
      ∧ errsAt (decodeRS .jit 5 2 1 (rsGeneratorPolyList (2 : ZMod 5) 1 2)
          (rsParityCheckMatrix 4 (rsRootsList (2 : ZMod 5) 1 2)) true
          (fun _ => []) (fun _ => ([], [])) [[1, 2, 3, 4]]) 0
        = errsAt (decodeRS .jit 5 2 1 (rsGeneratorPolyList (2 : ZMod 5) 1 2)
          (rsParityCheckMatrix 4 (rsRootsList (2 : ZMod 5) 1 2)) true
          (fun _ => []) (fun _ => ([], [])) [[1, 2, 3, 4], [0, 0, 0, 0]]) 0) :=
  ⟨⟨by decide, by decide, by decide, by decide, by decide, by decide⟩,
    claim_C8_row_noninterference (ZMod 5) 5 2 1 4
      (rsGeneratorPolyList (2 : ZMod 5) 1 2)
      (rsParityCheckMatrix 4 (rsRootsList (2 : ZMod 5) 1 2)) true
      (fun _ => []) (fun _ => ([], [])) [[1, 2, 3, 4]]
      [[1, 2, 3, 4], [0, 0, 0, 0]] 0 (by decide) (by decide) (by decide)
      (by decide) (by decide) (by decide)⟩

/-- Claim C10: for fields in `"python-calculate"` ufunc mode, decode raises
`NotImplementedError` for every (well-shaped) input codeword — the check
sits after the syndrome matrix multiply in the source, so the mode error,
not a shape error, is reported — while construction and encoding succeed
(encode uses the pure-python matmul kernel). -/
theorem claim_C10_python_mode (F : Type) [Field F] [DecidableEq F] (α : F)
    (p k t c : ℕ) (sys : Bool) (BM : List F → List F)
    (ROOTS : List F → List F × List ℕ) (msgs cw : List (List F))
    (ht : 1 ≤ t) (hcw : matWidth cw = k + 2 * t) (hne : msgs ≠ [])
    (hm : ∀ m ∈ msgs, m.length = k) :
    decodeRS .pythonCalculate p k t (rsGeneratorPolyList α c (2 * t))
        (rsParityCheckMatrix (k + 2 * t) (rsRootsList α c (2 * t))) sys BM
        ROOTS cw
      = .error .notImplemented
    ∧ (encodeRS .pythonCalculate k
        (rsGeneratorMatrix (rsGeneratorPolyList α c (2 * t)) (k + 2 * t) k
          sys) sys msgs).isOk = true := by
  have hmw := matWidth_of_rows msgs k hne hm
  constructor
  · rw [decodeRS_eq]
    rw [if_neg (by
      rw [hcw, transposeM_length,
        parityCheckMatrix_width α c (2 * t) _ (by omega)]
      simp)]
    rw [if_pos rfl]
  · cases sys with
    | true =>
        have hjm : jitMatmul .pythonCalculate msgs
            ((rsGeneratorMatrix (rsGeneratorPolyList α c (2 * t)) (k + 2 * t)
              k true).map (fun row => row.drop k))
            = .ok (matmulPythonRaw msgs
              ((rsGeneratorMatrix (rsGeneratorPolyList α c (2 * t)) (k + 2 * t)
                k true).map (fun row => row.drop k))) := by
          unfold jitMatmul
          rw [if_neg (by simp [hmw, genMatrix_length])]
        simp only [encodeRS, hmw, ne_eq, not_true_eq_false, if_false, if_true,
          hjm]
        rfl
    | false =>
        have hjm : jitMatmul .pythonCalculate msgs
            (rsGeneratorMatrix (rsGeneratorPolyList α c (2 * t)) (k + 2 * t) k
              false)
            = .ok (matmulPythonRaw msgs
              (rsGeneratorMatrix (rsGeneratorPolyList α c (2 * t)) (k + 2 * t)
                k false)) := by
          unfold jitMatmul
          rw [if_neg (by simp [hmw, genMatrix_length])]
        simp only [encodeRS, hmw, ne_eq, not_true_eq_false, if_false,
          Bool.false_eq_true, hjm]
        rfl

/-- Witness for C10: the RS(4, 2) code over GF(5) in python-calculate mode:
decoding any width-4 codeword reports `NotImplementedError` while encoding a
batch succeeds. -/
theorem claim_C10_witness :
    (1 ≤ 1 ∧ matWidth [[(1 : ZMod 5), 2, 3, 4]] = 2 + 2 * 1
      ∧ ([[(1 : ZMod 5), 2]] ≠ ([] : List (List (ZMod 5))))
      ∧ ∀ m ∈ [[(1 : ZMod 5), 2]], m.length = 2)
    ∧ (decodeRS .pythonCalculate 5 2 1 (rsGeneratorPolyList (2 : ZMod 5) 1
          (2 * 1))
        (rsParityCheckMatrix (2 + 2 * 1) (rsRootsList (2 : ZMod 5) 1 (2 * 1)))
        true (fun _ => []) (fun _ => ([], [])) [[1, 2, 3, 4]]
      = .error .notImplemented
      ∧ (encodeRS .pythonCalculate 2
          (rsGeneratorMatrix (rsGeneratorPolyList (2 : ZMod 5) 1 (2 * 1))
            (2 + 2 * 1) 2 true) true [[1, 2]]).isOk = true) :=
  ⟨⟨by decide, by decide, by decide, by decide⟩,
    claim_C10_python_mode (ZMod 5) (2 : ZMod 5) 5 2 1 1 true (fun _ => [])
      (fun _ => ([], [])) [[1, 2]] [[1, 2, 3, 4]] (by decide) (by decide)
      (by decide) (by decide)⟩

/-- Claim C5: in the correctable branch of `decode_calculate`, the
`sigma_prime` array (each coefficient multiplied by its degree reduced mod
the characteristic `p`, so degrees divisible by `p` drop to zero) is exactly
the formal derivative of the error-locator polynomial, and each error value
`delta = -Z0(beta⁻¹) / sigma'(beta⁻¹)` is subtracted from the codeword symbol
at position `n - 1 - j` for error location `j`.  The kernels `BM` and
`ROOTS` are the decoder's function arguments; the hypotheses state that the
branch is the correctable one and that the reported locations are in-range
and distinct, as genuine root-finding guarantees. -/
theorem claim_C5_forney_error_values (F : Type) [Field F] [DecidableEq F]
    (p : ℕ) [CharP F p] (t : ℕ) (BM : List F → List F)
    (ROOTS : List F → List F × List ℕ) (row synd : List F) (vn : ℕ)
    (hns : ¬ ∀ s ∈ synd, s = 0)
    (hv : (BM synd).length = vn + 1)
    (hvt : (vn : ℤ) ≤ t)
    (hbeta : (ROOTS (BM synd.reverse)).1.length = vn)
    (hlt : ∀ j, j < vn → (ROOTS (BM synd.reverse)).2.getD j 0 < row.length)
    (hinj : ∀ j1, j1 < vn → ∀ j2, j2 < vn → j1 ≠ j2 →
      (ROOTS (BM synd.reverse)).2.getD j1 0
        ≠ (ROOTS (BM synd.reverse)).2.getD j2 0) :
    toPolyD (sigmaPrimeOf p (BM synd)) = derivative (toPolyD (BM synd))
    ∧ ∀ j, j < vn →
        (decodeCalcRow p t BM ROOTS row synd).1.getD
            (row.length - 1 - (ROOTS (BM synd.reverse)).2.getD j 0) 0
          = row.getD (row.length - 1
                - (ROOTS (BM synd.reverse)).2.getD j 0) 0
            - (-((toPolyD (errorEvalZ0 (BM synd) synd)).eval
                  (((ROOTS (BM synd.reverse)).1.getD j 0)⁻¹))
                / (derivative (toPolyD (BM synd))).eval
                  (((ROOTS (BM synd.reverse)).1.getD j 0)⁻¹)) := by
  have hA : toPolyD (sigmaPrimeOf p (BM synd))
      = derivative (toPolyD (BM synd)) :=
    sigmaPrimeOf_toPolyD p (BM synd)
      (by intro habs; rw [habs] at hv; simp at hv)
  refine ⟨hA, ?_⟩
  intro j hj
  rw [decodeCalcRow_eq, if_neg hns,
    if_neg (show ¬((t : ℤ) < ((BM synd).length : ℤ) - 1) by
      rw [hv]; push_cast; omega),
    if_neg (show ¬((((ROOTS (BM synd.reverse)).1.length : ℤ))
        ≠ ((BM synd).length : ℤ) - 1) by
      rw [hv, hbeta]; push_cast; omega)]
  have hvn2 : (BM synd).length - 1 = vn := by omega
  simp only [hvn2]
  rw [correctionLoop_eq_fold]
  have hfold := foldl_set_getD
    (fun j2 => row.length - 1 - (ROOTS (BM synd.reverse)).2.getD j2 0)
    (fun j2 => (0 - hornerEval (errorEvalZ0 (BM synd) synd)
        (((ROOTS (BM synd.reverse)).1.getD j2 0)⁻¹))
      * (hornerEval (sigmaPrimeOf p (BM synd))
          (((ROOTS (BM synd.reverse)).1.getD j2 0)⁻¹))⁻¹)
    (List.range vn) row (List.nodup_range vn)
    (fun j2 hj2 => by
      dsimp only
      have hj2v : j2 < vn := List.mem_range.mp hj2
      have := hlt j2 hj2v
      omega)
    (fun j1 h1 j2 h2 hne => by
      dsimp only
      have h1v : j1 < vn := List.mem_range.mp h1
      have h2v : j2 < vn := List.mem_range.mp h2
      have hl1 := hlt j1 h1v
      have hl2 := hlt j2 h2v
      have hll := hinj j1 h1v j2 h2v hne
      omega)
    j (List.mem_range.mpr hj)
  rw [hfold]
  dsimp only
  rw [hornerEval_eq_eval, hornerEval_eq_eval, hA, div_eq_mul_inv, zero_sub]

/-- Witness for C5: a concrete correctable branch over GF(5) with constant
kernels: `sigma = x + 1`, one error at location 0 with locator `2`. -/
theorem claim_C5_witness :
    ((¬ ∀ s ∈ [(1 : ZMod 5), 0], s = 0)
      ∧ ([(1 : ZMod 5), 1]).length = 1 + 1
      ∧ ((1 : ℕ) : ℤ) ≤ ((1 : ℕ) : ℤ)
      ∧ ([(2 : ZMod 5)]).length = 1
      ∧ (∀ j, j < 1 → ([0] : List ℕ).getD j 0
          < ([(1 : ZMod 5), 2, 3, 4] : List (ZMod 5)).length)
      ∧ (∀ j1, j1 < 1 → ∀ j2, j2 < 1 → j1 ≠ j2 →
          ([0] : List ℕ).getD j1 0 ≠ ([0] : List ℕ).getD j2 0))
    ∧ (toPolyD (sigmaPrimeOf 5 [(1 : ZMod 5), 1])
          = Polynomial.derivative (toPolyD [(1 : ZMod 5), 1])
      ∧ ∀ j, j < 1 →
          (decodeCalcRow 5 1 (fun _ => [(1 : ZMod 5), 1])
              (fun _ => ([(2 : ZMod 5)], [0])) [1, 2, 3, 4] [1, 0]).1.getD
              (([(1 : ZMod 5), 2, 3, 4] : List (ZMod 5)).length - 1
                - ([0] : List ℕ).getD j 0) 0
            = ([(1 : ZMod 5), 2, 3, 4] : List (ZMod 5)).getD
                (([(1 : ZMod 5), 2, 3, 4] : List (ZMod 5)).length - 1
                  - ([0] : List ℕ).getD j 0) 0
              - (-((toPolyD (errorEvalZ0 [(1 : ZMod 5), 1] [1, 0])).eval
                    ((([(2 : ZMod 5)] : List (ZMod 5)).getD j 0)⁻¹))
                  / (Polynomial.derivative (toPolyD [(1 : ZMod 5), 1])).eval
                    ((([(2 : ZMod 5)] : List (ZMod 5)).getD j 0)⁻¹))) :=
  ⟨⟨by decide, by decide, by decide, by decide, by decide, by decide⟩,
    claim_C5_forney_error_values (ZMod 5) 5 1 (fun _ => [1, 1])
      (fun _ => ([2], [0])) [1, 2, 3, 4] [1, 0] 1 (by decide) (by decide)
      (by decide) (by decide) (by decide) (by decide)⟩

/-- Counterexample for C9: `equal_degree_factorization` does not terminate on
every valid input for every sequence of random draws.  Over GF(5) with
`f = x^4 + 4 = (x-1)(x-2)(x-3)(x-4)` (monic, square-free, degree divisible by
`d = 1`, so `r = 4`), if every random draw is `h = x^2` (a degree the source's
`Poly.Random(random.randint(1, n-1))` can produce) then
`gcd(f, h) = 1` and `h^((q^d-1)/2) - 1 ≡ 0 (mod f)`, so no factor ever
splits: no number of loop iterations makes `len(factors_)` reach `r`. -/
theorem claim_C9_counterexample :
    ¬ ∃ fuel : ℕ,
      (edfLoop ([1, 0, 0, 0, 4] : List F5) 2 4 (fun _ => [1, 0, 0])
        fuel 0 [[1, 0, 0, 0, 4]]).isSome = true := by
  have hstep : edfStep ([1, 0, 0, 0, 4] : List F5) 2 [[1, 0, 0, 0, 4]]
      [1, 0, 0] = [[1, 0, 0, 0, 4]] := by decide
  have hall : ∀ (fl idx : ℕ),
      edfLoop ([1, 0, 0, 0, 4] : List F5) 2 4 (fun _ => [1, 0, 0]) fl
        idx [[1, 0, 0, 0, 4]] = none := by
    intro fl
    induction fl with
    | zero =>
        intro idx
        simp only [edfLoop]
        rw [if_neg (by decide)]
    | succ fl ih =>
        intro idx
        simp only [edfLoop]
        rw [if_neg (by decide), hstep]
        exact ih (idx + 1)
  rintro ⟨fuel, hsome⟩
  rw [hall fuel 0] at hsome
  simp at hsome

/-- Amended C9 (theorem part): with the random draws as an explicit stream,
the splitting loop terminates immediately whenever `r = 1` (the degree of the
input equals `d`): for every stream and every fuel the function returns
`[poly]`.  For `r ≥ 2` termination depends on the drawn polynomials and some
infinite draw sequences never terminate (see the counterexample), so
termination is only almost-sure, not universal. -/
theorem claim_C9_amended_r_eq_one (F : Type) [Field F] [DecidableEq F]
    (f : List F) (d q fuel : ℕ) (rep : List F → ℕ) (stream : ℕ → List F)
    (hd : 1 ≤ d) (hdeg : (stripLeadZeros f).length - 1 = d)
    (hmon : isMonicL f = true) :
    equalDegreeFactorizationModel f d q rep stream fuel = .ok (some [f]) := by
  unfold equalDegreeFactorizationModel
  rw [hdeg]
  rw [if_neg (by omega), if_neg (by simp [hmon]),
    if_neg (by simp [Nat.mod_self]; omega), Nat.div_self (by omega)]
  cases fuel with
  | zero =>
      simp only [edfLoop]
      rw [if_pos (by simp)]
      simp [List.insertionSort, List.orderedInsert]
  | succ fl =>
      simp only [edfLoop]
      rw [if_pos (by simp)]
      simp [List.insertionSort, List.orderedInsert]

/-- Witness for the amended C9: `f = x + 3` over GF(5) with `d = 1`
(`r = 1`): the loop exits immediately for the empty stream and zero fuel. -/
theorem claim_C9_amended_witness :
    (1 ≤ 1
      ∧ (stripLeadZeros ([1, 3] : List (ZMod 5))).length - 1 = 1
      ∧ isMonicL ([1, 3] : List (ZMod 5)) = true)
    ∧ equalDegreeFactorizationModel ([1, 3] : List (ZMod 5)) 1 5 (fun _ => 0)
        (fun _ => []) 0 = .ok (some [[1, 3]]) :=
  ⟨⟨by decide, by decide, by decide⟩,
    claim_C9_amended_r_eq_one (ZMod 5) [1, 3] 1 5 0 (fun _ => 0) (fun _ => [])
      (by decide) (by decide) (by decide)⟩

end Claims

end GaloisRS
